import Mathlib

/-!
Shallow embedding of the labelmaker SVG templating core
(`src/SvgTemplate.py`, `src/labelmaker.py`).

Strings are modelled as lists of characters (`Str`), so that Python's
`str.split(c)` can be embedded as a structurally recursive function and
reasoned about by list induction.  XML elements (`xml.etree.ElementTree`
nodes) are modelled by the inductive type `Elt`: a tag, an ordered
attribute association list, optional direct text, and an ordered child
list.  Failures (Python exceptions) are modelled with `Except Str`.
-/

namespace Labelmaker

/-- Python strings, modelled as lists of characters. -/
abbrev Str := List Char

/-- Convenience coercion from Lean string literals. -/
def str (s : String) : Str := s.data

/-- Python's `s.split(sep)` for a single-character separator: splits on every
occurrence of `sep`, keeping empty chunks (`"".split(' ') == ['']`). -/
def splitOnChar (sep : Char) : Str → List Str
  | [] => [[]]
  | c :: cs =>
    match splitOnChar sep cs with
    | [] => [[]]
    | s :: ss => if c = sep then [] :: s :: ss else (c :: s) :: ss

/-- `splitOnChar` never returns the empty list of chunks. -/
theorem splitOnChar_ne_nil (sep : Char) (l : Str) : splitOnChar sep l ≠ [] := by
  cases l with
  | nil => simp [splitOnChar]
  | cons c cs =>
    simp only [splitOnChar]
    rcases h : splitOnChar sep cs with _ | ⟨s, ss⟩
    · simp
    · by_cases hc : c = sep <;> simp [hc]

/-- Splitting a separator-free string yields the single original chunk. -/
theorem splitOnChar_of_not_mem (sep : Char) (l : Str) (h : sep ∉ l) :
    splitOnChar sep l = [l] := by
  induction l with
  | nil => rfl
  | cons c cs ih =>
    simp only [List.mem_cons, not_or] at h
    simp only [splitOnChar, ih h.2]
    have : c ≠ sep := fun hc => h.1 hc.symm
    simp [this]

/-- Splitting `l ++ sep :: r` where `l` is separator-free peels off `l`. -/
theorem splitOnChar_append (sep : Char) (l r : Str) (h : sep ∉ l) :
    splitOnChar sep (l ++ sep :: r) = l :: splitOnChar sep r := by
  induction l with
  | nil =>
    simp only [List.nil_append, splitOnChar]
    rcases hr : splitOnChar sep r with _ | ⟨s, ss⟩
    · exact absurd hr (splitOnChar_ne_nil sep r)
    · simp
  | cons c cs ih =>
    simp only [List.mem_cons, not_or] at h
    have hne : c ≠ sep := fun hc => h.1 hc.symm
    simp only [List.cons_append, splitOnChar]
    rw [List.append_eq, ih h.2]
    simp [hne]

/-- Joining the chunks of a split with the separator restores the string. -/
theorem intercalate_splitOnChar (sep : Char) (l : Str) :
    List.intercalate [sep] (splitOnChar sep l) = l := by
  induction l with
  | nil => rfl
  | cons c cs ih =>
    simp only [splitOnChar]
    rcases h : splitOnChar sep cs with _ | ⟨s, ss⟩
    · exact absurd h (splitOnChar_ne_nil sep cs)
    · rw [h] at ih
      by_cases hc : c = sep
      · subst hc
        simp only [if_pos rfl]
        cases ss <;> simpa [List.intercalate] using ih
      · simp only [if_neg hc]
        cases ss <;> simpa [List.intercalate] using ih

/-- An XML element: tag, attribute association list, optional direct text,
ordered children (`xml.etree.ElementTree.Element`). -/
inductive Elt where
  | mk (tag : Str) (attrs : List (Str × Str)) (text : Option Str) (children : List Elt)

/-- The element's tag. -/
def Elt.tag : Elt → Str
  | .mk t _ _ _ => t

/-- The element's attribute association list. -/
def Elt.attrs : Elt → List (Str × Str)
  | .mk _ a _ _ => a

/-- The element's direct text (`elt.text`), `none` = Python `None`. -/
def Elt.text : Elt → Option Str
  | .mk _ _ t _ => t

/-- The element's ordered child list. -/
def Elt.children : Elt → List Elt
  | .mk _ _ _ c => c

/-- `elt.get(attr)`: attribute lookup, first binding wins. -/
def Elt.getAttr (e : Elt) (k : Str) : Option Str :=
  (e.attrs.find? (fun kv => kv.1 = k)).map (·.2)

/-- `strip_tag(tag)`: drop everything up to and including the first `}`
(the XML namespace); if `}` does not occur, return the tag unchanged. -/
def stripTag (tag : Str) : Str :=
  if '}' ∈ tag then List.intercalate ['}'] ((splitOnChar '}' tag).tail)
  else tag

/-- A namespace-free tag is returned unchanged by `stripTag`. -/
theorem stripTag_of_not_mem (tag : Str) (h : '}' ∉ tag) : stripTag tag = tag := by
  simp [stripTag, h]

/-- The tag allow-list of `get_text_contents`: text-bearing kinds. -/
def textTags : List Str := [str "text", str "tspan"]

/-- The known-but-unsupported text-adjacent kinds of `get_text_contents`. -/
def badTags : List Str :=
  [str "altGlyph", str "altGlyphDef", str "altGlyphItem", str "glyph",
   str "glyphRef", str "textPath", str "tref"]

/-- The `NotImplementedError` message of `get_text_contents`. -/
def unsupportedMsg (tag : Str) : Str :=
  str "get_text_contents only supports tspan children, got '" ++ tag ++ str "'"

/-- Children are structurally smaller than their parent element. -/
theorem Elt.sizeOf_children_lt (e : Elt) : sizeOf e.children < sizeOf e := by
  cases e with
  | mk t a x c => simp only [Elt.children, Elt.mk.sizeOf_spec]; omega

mutual

/-- `get_text_contents.process_child`: on a text/tspan node collect its direct
text (when non-empty, per Python truthiness) then recurse into its children;
on a known-unsupported kind raise `NotImplementedError`; any other kind is
discarded, its subtree included.  Returns the collected text chunks. -/
def processChild : Elt → Except Str (List Str)
  | .mk tag _ text children =>
    if stripTag tag ∈ textTags then
      (processChildList children).map (fun rest =>
        (match text with
          | some t => if t ≠ [] then [t] else []
          | none => []) ++ rest)
    else if stripTag tag ∈ badTags then
      .error (unsupportedMsg (stripTag tag))
    else
      .ok []
termination_by structural e => e

/-- Left-to-right processing of a child list, short-circuiting on error. -/
def processChildList : List Elt → Except Str (List Str)
  | [] => .ok []
  | c :: cs => do
    let r ← processChild c
    let rs ← processChildList cs
    .ok (r ++ rs)
termination_by structural l => l

end

/-- `get_text_contents(elt)`: all collected chunks joined into one string. -/
def getTextContents (e : Elt) : Except Str Str :=
  (processChild e).map List.flatten

mutual

/-- The nodes `get_text_contents` actually visits, in traversal order: the
root is always visited; the children of a visited node are visited exactly
when that node's stripped tag is text/tspan. -/
def visitedNodes : Elt → List Elt
  | .mk tag attrs text children =>
    if stripTag tag ∈ textTags then
      Elt.mk tag attrs text children :: visitedNodesList children
    else
      [Elt.mk tag attrs text children]
termination_by structural e => e

/-- Visited nodes of a forest, in order. -/
def visitedNodesList : List Elt → List Elt
  | [] => []
  | c :: cs => visitedNodes c ++ visitedNodesList cs
termination_by structural l => l

end

/-- Whether a node's stripped tag is a known-but-unsupported kind. -/
def isBadNode (e : Elt) : Bool := decide (stripTag e.tag ∈ badTags)

/-- The stripped tag of the first visited unsupported node, if any. -/
def firstBadVisited (e : Elt) : Option Str :=
  ((visitedNodes e).find? isBadNode).map (fun n => stripTag n.tag)

/-- The direct text of the visited text/tspan nodes, in traversal order. -/
def visitedTexts (e : Elt) : List Str :=
  (visitedNodes e).filterMap
    (fun n => if stripTag n.tag ∈ textTags then n.text else none)

/-- `firstBadVisited` restricted to a forest. -/
def firstBadVisitedList (l : List Elt) : Option Str :=
  ((visitedNodesList l).find? isBadNode).map (fun n => stripTag n.tag)

/-- The direct text of visited text/tspan nodes of a forest. -/
def visitedTextsList (l : List Elt) : List Str :=
  (visitedNodesList l).filterMap
    (fun n => if stripTag n.tag ∈ textTags then n.text else none)

/-- No tag is both a text tag and an unsupported tag. -/
theorem textTags_badTags_disjoint (t : Str) (h : t ∈ textTags) : t ∉ badTags := by
  fin_cases h <;> decide

mutual

/-- `processChild` agrees with the declarative visited-node description:
it errors on the first visited unsupported node, and otherwise collects the
direct text of the visited text/tspan nodes (dropping empty texts, which is
invisible after joining). -/
theorem processChild_eq (e : Elt) :
    processChild e = match firstBadVisited e with
      | some tg => Except.error (unsupportedMsg tg)
      | none => Except.ok ((visitedTexts e).filter (fun t => !(t.isEmpty))) := by
  rcases e with ⟨tag, attrs, text, children⟩
  have hm1 : (Elt.mk tag attrs text children).tag = tag := rfl
  have hm2 : (Elt.mk tag attrs text children).text = text := rfl
  rw [processChild.eq_def]
  dsimp only
  by_cases htext : stripTag tag ∈ textTags
  · have hbad : stripTag tag ∉ badTags := textTags_badTags_disjoint _ htext
    have hb : isBadNode (Elt.mk tag attrs text children) = false := by
      simp [isBadNode, Elt.tag, hbad]
    rw [processChildList_eq children]
    simp only [if_pos htext, firstBadVisited, visitedTexts, visitedNodes,
      if_pos htext, List.find?_cons, hb, List.filterMap_cons, hm1, hm2]
    cases hfind : (visitedNodesList children).find? isBadNode with
    | some n =>
      have : firstBadVisitedList children = some (stripTag n.tag) := by
        simp [firstBadVisitedList, hfind]
      rw [this]
      rfl
    | none =>
      have : firstBadVisitedList children = none := by
        simp [firstBadVisitedList, hfind]
      rw [this]
      simp only [if_pos htext]
      cases hx : text with
      | none => simp [Except.map, visitedTextsList]
      | some t =>
        by_cases ht : t = []
        · subst ht
          simp [Except.map, visitedTextsList, List.filter_cons]
        · have htE : t.isEmpty = false := by
            cases t with
            | nil => exact absurd rfl ht
            | cons a as => rfl
          simp [Except.map, visitedTextsList, List.filter_cons, ht, htE]
  · by_cases hbad2 : stripTag tag ∈ badTags
    · have hb : isBadNode (Elt.mk tag attrs text children) = true := by
        simp [isBadNode, Elt.tag, hbad2]
      simp [if_neg htext, hbad2, firstBadVisited, visitedNodes, if_neg htext,
        List.find?_cons, hb, hm1]
    · have hb : isBadNode (Elt.mk tag attrs text children) = false := by
        simp [isBadNode, Elt.tag, hbad2]
      simp [if_neg htext, hbad2, firstBadVisited, visitedTexts, visitedNodes,
        if_neg htext, List.find?_cons, hb, List.filterMap_cons, htext, hm1, hm2]
termination_by sizeOf e
decreasing_by all_goals simp_wf

/-- Forest version of `processChild_eq`. -/
theorem processChildList_eq (l : List Elt) :
    processChildList l = match firstBadVisitedList l with
      | some tg => Except.error (unsupportedMsg tg)
      | none => Except.ok ((visitedTextsList l).filter (fun t => !(t.isEmpty))) := by
  match l with
  | [] =>
    simp [processChildList, firstBadVisitedList, visitedTextsList, visitedNodesList]
  | c :: cs =>
    rw [processChildList, processChild_eq c, processChildList_eq cs]
    simp only [firstBadVisitedList, visitedTextsList, visitedNodesList,
      List.find?_append, List.filterMap_append, List.filter_append]
    cases hfb : (visitedNodes c).find? isBadNode with
    | some n =>
      simp only [firstBadVisited, hfb, Option.map_some', Option.or]
      rfl
    | none =>
      simp only [firstBadVisited, hfb, Option.map_none', Option.or]
      cases hfb2 : (visitedNodesList cs).find? isBadNode with
      | some n2 =>
        simp only [firstBadVisitedList, hfb2, Option.map_some']
        rfl
      | none =>
        simp only [firstBadVisitedList, hfb2, Option.map_none', visitedTexts,
          visitedTextsList]
        rfl
termination_by sizeOf l
decreasing_by all_goals simp_wf <;> omega

end


/-- Python `s.startswith(p)`. -/
def strStartsWith : Str → Str → Bool
  | _, [] => true
  | [], _ :: _ => false
  | c :: cs, p :: ps => c == p && strStartsWith cs ps

/-- Decimal rendering of a natural number (Python `'%i' % n`). -/
def natStr (n : Nat) : Str := (toString n).data

/-- The state of a parsed command (`SvgTemplate.Command`): the original
command string, the command name (marker stripped), the ordered positional
arguments, the keyword arguments in insertion order, and the two
access-tracking sets (modelled as lists with membership semantics). -/
structure Command where
  cmd_str : Str
  cmd : Str
  pos_args : List Str
  kw_args : List (Str × Str)
  pos_args_accessed : List Nat
  kw_args_accessed : List Str

/-- The argument loop of `Command.__init__`: a token containing `=` must
split into exactly a key and a value and must not redefine a key; any other
token is appended to the positional arguments. -/
def parseArgs (cmd_str : Str) : List Str → List (Str × Str) → List Str →
    Except Str (List (Str × Str) × List Str)
  | [], kw, pos => .ok (kw, pos)
  | cmd_arg :: rest, kw, pos =>
    if cmd_arg.contains '=' then
      match splitOnChar '=' cmd_arg with
      | [k, v] =>
        if (kw.find? (fun kv => kv.1 == k)).isSome then
          .error (str "Command '" ++ cmd_str ++ str "' redefined keyword arg '" ++ k ++ str "'")
        else
          parseArgs cmd_str rest (kw ++ [(k, v)]) pos
      | _ =>
        .error (str "Command '" ++ cmd_str ++ str "' keyword arg '" ++ cmd_arg ++
          str "' must have exactly one '='")
    else
      parseArgs cmd_str rest kw (pos ++ [cmd_arg])

/-- `Command.__init__(cmd_str)`: split on single spaces, drop empty tokens,
require the first token to start with `#`, then parse the argument tokens. -/
def parseCommand (cmd_str : Str) : Except Str Command :=
  match (splitOnChar ' ' cmd_str).filter (fun e => !(e.isEmpty)) with
  | [] => .error (str "IndexError: list index out of range")
  | cmd :: cmd_args =>
    if strStartsWith cmd (str "#") then
      (parseArgs cmd_str cmd_args [] []).map (fun kp =>
        { cmd_str := cmd_str, cmd := cmd.drop 1, pos_args := kp.2, kw_args := kp.1,
          pos_args_accessed := [], kw_args_accessed := [] })
    else
      .error (str "Command '" ++ cmd_str ++ str "' first element '" ++ cmd ++
        str "' didn't start with '#'")

/-- `Command.get_num_pos_args()`. -/
def Command.get_num_pos_args (c : Command) : Nat := c.pos_args.length

/-- `Command.get_pos_arg(index, desc)`: out-of-range raises; otherwise the
index is marked accessed and the raw token is returned. -/
def Command.get_pos_arg (c : Command) (index : Nat) (desc : Str) :
    Except Str (Str × Command) :=
  if h : c.pos_args.length ≤ index then
    .error (str "Command '" ++ c.cmd_str ++ str "' missing arg " ++ natStr index ++
      str " (" ++ desc ++ str ")")
  else
    .ok (c.pos_args.get ⟨index, by omega⟩,
      { c with pos_args_accessed := index :: c.pos_args_accessed })

/-- `Command.get_kw_args` keys, in insertion order (`get_kw_keys()`). -/
def Command.get_kw_keys (c : Command) : List Str := c.kw_args.map Prod.fst

/-- `Command.get_kw_arg(kw, desc, default)`: an absent key returns the
default when one is supplied (`none` models the required-argument sentinel,
raising); a present key is marked accessed and its raw value returned. -/
def Command.get_kw_arg (c : Command) (kw : Str) (desc : Str) (default : Option Str) :
    Except Str (Str × Command) :=
  match c.kw_args.find? (fun kv => kv.1 == kw) with
  | none =>
    match default with
    | none =>
      .error (str "Command '" ++ c.cmd_str ++ str "' missing required keyword arg " ++
        kw ++ str " (" ++ desc ++ str ")")
    | some d => .ok (d, c)
  | some kv =>
    .ok (kv.2, { c with kw_args_accessed := kw :: c.kw_args_accessed })

/-- `Command.finalize()`: fails when some positional index or some present
keyword key was never accessed. -/
def Command.finalize (c : Command) : Except Str Unit :=
  if !(((List.range c.pos_args.length).filter
      (fun i => !(decide (i ∈ c.pos_args_accessed)))).isEmpty) then
    .error (str "Command '" ++ c.cmd_str ++ str "' has unused positional arguments")
  else if !(((c.kw_args.map Prod.fst).filter
      (fun k => !(decide (k ∈ c.kw_args_accessed)))).isEmpty) then
    .error (str "Command '" ++ c.cmd_str ++ str "' has unused keyword arguments")
  else
    .ok ()

/-- One recorded accessor call made by a consuming filter. -/
inductive Access where
  | pos (index : Nat) (desc : Str)
  | kw (key : Str) (desc : Str) (default : Option Str)

/-- Run a sequence of accessor calls against a command, threading the
access-tracking state and aborting on the first raised error. -/
def runAccesses (c : Command) : List Access → Except Str Command
  | [] => .ok c
  | .pos i d :: rest =>
    match c.get_pos_arg i d with
    | .error e => .error e
    | .ok (_, c2) => runAccesses c2 rest
  | .kw k d dflt :: rest =>
    match c.get_kw_arg k d dflt with
    | .error e => .error e
    | .ok (_, c2) => runAccesses c2 rest



/-- Step: an in-range positional access marks its index. -/
theorem runAccesses_pos_ok (c : Command) (j : Nat) (d : Str) (rest : List Access)
    (hj : j < c.pos_args.length) :
    runAccesses c (.pos j d :: rest) =
      runAccesses { c with pos_args_accessed := j :: c.pos_args_accessed } rest := by
  rw [runAccesses]
  simp [Command.get_pos_arg, Nat.not_le.mpr hj]

/-- Step: an out-of-range positional access aborts the run. -/
theorem runAccesses_pos_err (c : Command) (j : Nat) (d : Str) (rest : List Access)
    (hj : c.pos_args.length ≤ j) :
    runAccesses c (.pos j d :: rest) =
      .error (str "Command '" ++ c.cmd_str ++ str "' missing arg " ++ natStr j ++
        str " (" ++ d ++ str ")") := by
  rw [runAccesses]
  simp [Command.get_pos_arg, hj]

/-- Step: a keyword access on a present key marks that key. -/
theorem runAccesses_kw_ok (c : Command) (k : Str) (d : Str) (dflt : Option Str)
    (rest : List Access) (kv : Str × Str)
    (hfind : c.kw_args.find? (fun kv => kv.1 == k) = some kv) :
    runAccesses c (.kw k d dflt :: rest) =
      runAccesses { c with kw_args_accessed := k :: c.kw_args_accessed } rest := by
  rw [runAccesses]
  simp [Command.get_kw_arg, hfind]

/-- Step: a keyword access on an absent key with a default leaves the state
unchanged. -/
theorem runAccesses_kw_default (c : Command) (k : Str) (d : Str) (dd : Str)
    (rest : List Access)
    (hfind : c.kw_args.find? (fun kv => kv.1 == k) = none) :
    runAccesses c (.kw k d (some dd) :: rest) = runAccesses c rest := by
  rw [runAccesses]
  simp [Command.get_kw_arg, hfind]

/-- Step: a required keyword access on an absent key aborts the run. -/
theorem runAccesses_kw_err (c : Command) (k : Str) (d : Str) (rest : List Access)
    (hfind : c.kw_args.find? (fun kv => kv.1 == k) = none) :
    runAccesses c (.kw k d none :: rest) =
      .error (str "Command '" ++ c.cmd_str ++ str "' missing required keyword arg " ++
        k ++ str " (" ++ d ++ str ")") := by
  rw [runAccesses]
  simp [Command.get_kw_arg, hfind]

/-- A successful accessor run preserves the parsed arguments and marks as
accessed exactly the initially-accessed items plus those read by the run
(a keyword key only when it is actually present). -/
theorem runAccesses_ok_inv (ops : List Access) (c c' : Command)
    (h : runAccesses c ops = .ok c') :
    c'.cmd_str = c.cmd_str ∧ c'.pos_args = c.pos_args ∧ c'.kw_args = c.kw_args ∧
    (∀ i, i ∈ c'.pos_args_accessed ↔
      (i ∈ c.pos_args_accessed ∨ ∃ d, Access.pos i d ∈ ops)) ∧
    (∀ k, k ∈ c.kw_args.map Prod.fst →
      (k ∈ c'.kw_args_accessed ↔
        (k ∈ c.kw_args_accessed ∨ ∃ d dflt, Access.kw k d dflt ∈ ops))) := by
  induction ops generalizing c with
  | nil =>
    simp only [runAccesses, Except.ok.injEq] at h
    subst h
    refine ⟨rfl, rfl, rfl, fun i => ?_, fun k _ => ?_⟩ <;> simp
  | cons a rest ih =>
    cases a with
    | pos j d =>
      by_cases hj : c.pos_args.length ≤ j
      · rw [runAccesses_pos_err c j d rest hj] at h
        exact absurd h (by simp)
      · rw [runAccesses_pos_ok c j d rest (Nat.not_le.mp hj)] at h
        rcases ih _ h with ⟨h1, h2, h3, h4, h5⟩
        refine ⟨h1, h2, h3, fun i => ?_, fun k hk => ?_⟩
        · rw [h4 i]
          show i ∈ j :: c.pos_args_accessed ∨ _ ↔ _
          simp only [List.mem_cons]
          constructor
          · rintro ((rfl | hm) | ⟨d2, hd2⟩)
            · exact Or.inr ⟨d, Or.inl rfl⟩
            · exact Or.inl hm
            · exact Or.inr ⟨d2, Or.inr hd2⟩
          · rintro (hm | ⟨d2, hd2⟩)
            · exact Or.inl (Or.inr hm)
            · rcases hd2 with heq | hd3
              · cases heq; exact Or.inl (Or.inl rfl)
              · exact Or.inr ⟨d2, hd3⟩
        · rw [h5 k hk]
          show k ∈ c.kw_args_accessed ∨ _ ↔ _
          constructor
          · rintro (hm | ⟨d2, dflt2, hd2⟩)
            · exact Or.inl hm
            · exact Or.inr ⟨d2, dflt2, List.mem_cons_of_mem _ hd2⟩
          · rintro (hm | ⟨d2, dflt2, hd2⟩)
            · exact Or.inl hm
            · rcases List.mem_cons.mp hd2 with heq | hd3
              · exact absurd heq (by simp)
              · exact Or.inr ⟨d2, dflt2, hd3⟩
    | kw key d dflt =>
      rcases hfind : c.kw_args.find? (fun kv => kv.1 == key) with _ | kv
      · have hkey : key ∉ c.kw_args.map Prod.fst := by
          intro hmem
          rcases List.mem_map.mp hmem with ⟨kv2, hkv2, hfst⟩
          have := List.find?_eq_none.mp hfind kv2 hkv2
          simp [hfst] at this
        cases dflt with
        | none =>
          rw [runAccesses_kw_err c key d rest hfind] at h
          exact absurd h (by simp)
        | some dd =>
          rw [runAccesses_kw_default c key d dd rest hfind] at h
          rcases ih _ h with ⟨h1, h2, h3, h4, h5⟩
          refine ⟨h1, h2, h3, fun i => ?_, fun k hk => ?_⟩
          · rw [h4 i]
            constructor
            · rintro (hm | ⟨d2, hd2⟩)
              · exact Or.inl hm
              · exact Or.inr ⟨d2, List.mem_cons_of_mem _ hd2⟩
            · rintro (hm | ⟨d2, hd2⟩)
              · exact Or.inl hm
              · rcases List.mem_cons.mp hd2 with heq | hd3
                · exact absurd heq (by simp)
                · exact Or.inr ⟨d2, hd3⟩
          · rw [h5 k hk]
            constructor
            · rintro (hm | ⟨d2, dflt2, hd2⟩)
              · exact Or.inl hm
              · exact Or.inr ⟨d2, dflt2, List.mem_cons_of_mem _ hd2⟩
            · rintro (hm | ⟨d2, dflt2, hd2⟩)
              · exact Or.inl hm
              · rcases List.mem_cons.mp hd2 with heq | hd3
                · obtain ⟨rfl, rfl, rfl⟩ := Access.kw.inj heq
                  exact absurd hk hkey
                · exact Or.inr ⟨d2, dflt2, hd3⟩
      · rw [runAccesses_kw_ok c key d dflt rest kv hfind] at h
        rcases ih _ h with ⟨h1, h2, h3, h4, h5⟩
        refine ⟨h1, h2, h3, fun i => ?_, fun k hk => ?_⟩
        · rw [h4 i]
          constructor
          · rintro (hm | ⟨d2, hd2⟩)
            · exact Or.inl hm
            · exact Or.inr ⟨d2, List.mem_cons_of_mem _ hd2⟩
          · rintro (hm | ⟨d2, hd2⟩)
            · exact Or.inl hm
            · rcases List.mem_cons.mp hd2 with heq | hd3
              · exact absurd heq (by simp)
              · exact Or.inr ⟨d2, hd3⟩
        · rw [h5 k hk]
          show k ∈ key :: c.kw_args_accessed ∨ _ ↔ _
          simp only [List.mem_cons]
          constructor
          · rintro ((rfl | hm) | ⟨d2, dflt2, hd2⟩)
            · exact Or.inr ⟨d, dflt, Or.inl rfl⟩
            · exact Or.inl hm
            · exact Or.inr ⟨d2, dflt2, Or.inr hd2⟩
          · rintro (hm | ⟨d2, dflt2, hd2⟩)
            · exact Or.inl (Or.inr hm)
            · rcases hd2 with heq | hd3
              · obtain ⟨rfl, rfl, rfl⟩ := Access.kw.inj heq
                exact Or.inl (Or.inl rfl)
              · exact Or.inr ⟨d2, dflt2, hd3⟩

/-- `finalize` raises exactly when an unaccessed positional index or an
unaccessed present keyword key exists. -/
theorem finalize_error_iff (c : Command) :
    (∃ msg, c.finalize = .error msg) ↔
      ((∃ i, i < c.pos_args.length ∧ i ∉ c.pos_args_accessed) ∨
       (∃ k, k ∈ c.kw_args.map Prod.fst ∧ k ∉ c.kw_args_accessed)) := by
  by_cases hp : ((List.range c.pos_args.length).filter
      (fun i => !(decide (i ∈ c.pos_args_accessed)))) = []
  · by_cases hk : ((c.kw_args.map Prod.fst).filter
        (fun k => !(decide (k ∈ c.kw_args_accessed)))) = []
    · have hfin : c.finalize = .ok () := by
        unfold Command.finalize
        rw [hp, hk]
        rfl
      rw [hfin]
      rw [List.filter_eq_nil_iff] at hp hk
      simp only [List.mem_range, Bool.not_eq_true, Bool.not_eq_false,
        decide_eq_true_eq] at hp hk
      constructor
      · rintro ⟨msg, hmsg⟩
        exact absurd hmsg (by simp)
      · rintro (⟨i, hi, hni⟩ | ⟨k, hk2, hnk⟩)
        · have := hp i hi
          simp at this
          exact absurd this hni
        · have := hk k hk2
          simp at this
          exact absurd this hnk
    · rcases List.exists_cons_of_ne_nil hk with ⟨k, ks, hcons⟩
      have hfin : c.finalize =
          .error (str "Command '" ++ c.cmd_str ++ str "' has unused keyword arguments") := by
        unfold Command.finalize
        rw [hp, hcons]
        rfl
      have hkmem : k ∈ (c.kw_args.map Prod.fst).filter
          (fun k => !(decide (k ∈ c.kw_args_accessed))) := by
        rw [hcons]; exact List.mem_cons_self _ _
      rw [List.mem_filter] at hkmem
      constructor
      · intro _
        refine Or.inr ⟨k, hkmem.1, ?_⟩
        simpa using hkmem.2
      · intro _
        exact ⟨_, hfin⟩
  · rcases List.exists_cons_of_ne_nil hp with ⟨i, is, hcons⟩
    have hfin : c.finalize =
        .error (str "Command '" ++ c.cmd_str ++ str "' has unused positional arguments") := by
      unfold Command.finalize
      rw [hcons]
      rfl
    have himem : i ∈ (List.range c.pos_args.length).filter
        (fun i => !(decide (i ∈ c.pos_args_accessed))) := by
      rw [hcons]; exact List.mem_cons_self _ _
    rw [List.mem_filter] at himem
    constructor
    · intro _
      refine Or.inl ⟨i, List.mem_range.mp himem.1, ?_⟩
      simpa using himem.2
    · intro _
      exact ⟨_, hfin⟩


/-- C2: for every parsed command, `finalize()` fails if and only if at least
one positional argument index or at least one present keyword-argument key
was never read through `get_pos_arg`/`get_kw_arg` before the call to
`finalize()` (the accessor calls made before `finalize` are `ops`). -/
theorem finalize_fails_iff_some_arg_unread (c c' : Command) (ops : List Access)
    (hp0 : c.pos_args_accessed = []) (hk0 : c.kw_args_accessed = [])
    (hrun : runAccesses c ops = .ok c') :
    (∃ msg, c'.finalize = .error msg) ↔
      ((∃ i, i < c.pos_args.length ∧ ∀ d, Access.pos i d ∉ ops) ∨
       (∃ k, k ∈ c.get_kw_keys ∧ ∀ d dflt, Access.kw k d dflt ∉ ops)) := by
  rcases runAccesses_ok_inv ops c c' hrun with ⟨_, h2, h3, h4, h5⟩
  rw [finalize_error_iff, h2, h3]
  simp only [Command.get_kw_keys]
  constructor
  · rintro (⟨i, hi, hni⟩ | ⟨k, hk, hnk⟩)
    · exact Or.inl ⟨i, hi, fun d hd => hni ((h4 i).mpr (Or.inr ⟨d, hd⟩))⟩
    · exact Or.inr ⟨k, hk, fun d dflt hd => hnk ((h5 k hk).mpr (Or.inr ⟨d, dflt, hd⟩))⟩
  · rintro (⟨i, hi, hni⟩ | ⟨k, hk, hnk⟩)
    · refine Or.inl ⟨i, hi, fun hc => ?_⟩
      rcases (h4 i).mp hc with hm | ⟨d, hd⟩
      · rw [hp0] at hm
        exact absurd hm (List.not_mem_nil i)
      · exact hni d hd
    · refine Or.inr ⟨k, hk, fun hc => ?_⟩
      rcases (h5 k hk).mp hc with hm | ⟨d, dflt, hd⟩
      · rw [hk0] at hm
        exact absurd hm (List.not_mem_nil k)
      · exact hnk d dflt hd

/-- Witness for C2: reading only positional argument 0 of `#f a b=c` and
then finalizing fails, because the keyword argument `b` was never read. -/
theorem finalize_fails_iff_some_arg_unread_witness :
    ∃ msg, Command.finalize
      { cmd_str := str "#f a b=c", cmd := str "f", pos_args := [str "a"],
        kw_args := [(str "b", str "c")], pos_args_accessed := [0],
        kw_args_accessed := [] } = .error msg := by
  refine (finalize_fails_iff_some_arg_unread
    { cmd_str := str "#f a b=c", cmd := str "f", pos_args := [str "a"],
      kw_args := [(str "b", str "c")], pos_args_accessed := [],
      kw_args_accessed := [] }
    { cmd_str := str "#f a b=c", cmd := str "f", pos_args := [str "a"],
      kw_args := [(str "b", str "c")], pos_args_accessed := [0],
      kw_args_accessed := [] }
    [Access.pos 0 (str "value")] rfl rfl (by rfl)).mpr ?_
  refine Or.inr ⟨str "b", ?_, ?_⟩
  · simp [Command.get_kw_keys]
  · intro d dflt hd
    simp at hd

/-- The positional tokens of an argument token list: those without `=`. -/
def posTokens (tokens : List Str) : List Str :=
  tokens.filter (fun t => !(t.contains '='))

/-- The keyword pairs of an argument token list, in token order. -/
def kwPairs (tokens : List Str) : List (Str × Str) :=
  tokens.filterMap (fun t =>
    if t.contains '=' then
      match splitOnChar '=' t with
      | [k, v] => some (k, v)
      | _ => none
    else none)

/-- A key absent from an association list is never found. -/
theorem assoc_find?_eq_none (l : List (Str × Str)) (k : Str)
    (h : k ∉ l.map Prod.fst) :
    l.find? (fun kv => kv.1 == k) = none := by
  rw [List.find?_eq_none]
  intro kv hkv hbeq
  exact h (List.mem_map.mpr ⟨kv, hkv, by simpa using hbeq⟩)

/-- With nodup keys, lookup of a present pair finds exactly that pair. -/
theorem assoc_find?_eq_some (l : List (Str × Str)) (k : Str) (v : Str)
    (hnd : (l.map Prod.fst).Nodup) (hmem : (k, v) ∈ l) :
    l.find? (fun kv => kv.1 == k) = some (k, v) := by
  induction l with
  | nil => exact absurd hmem (List.not_mem_nil _)
  | cons p rest ih =>
    rcases List.mem_cons.mp hmem with heq | hmem2
    · subst heq
      simp [List.find?_cons]
    · have hnd2 : p.1 ∉ rest.map Prod.fst ∧ (rest.map Prod.fst).Nodup := by
        rw [List.map_cons, List.nodup_cons] at hnd
        exact hnd
      have hk : p.1 ≠ k := by
        intro hpk
        exact hnd2.1 (hpk ▸ List.mem_map.mpr ⟨(k, v), hmem2, rfl⟩)
      rw [List.find?_cons_of_neg _ (by simpa using hk)]
      exact ih hnd2.2 hmem2

/-- The argument loop parses well-formed, key-distinct token lists into
the keyword pairs and positional tokens, appended to the accumulators. -/
theorem parseArgs_ok (cmd_str : Str) (tokens : List Str)
    (kw0 : List (Str × Str)) (pos0 : List Str)
    (hwf : ∀ t ∈ tokens, t.contains '=' = true → (splitOnChar '=' t).length = 2)
    (hnd : ((kw0 ++ kwPairs tokens).map Prod.fst).Nodup) :
    parseArgs cmd_str tokens kw0 pos0 =
      .ok (kw0 ++ kwPairs tokens, pos0 ++ posTokens tokens) := by
  induction tokens generalizing kw0 pos0 with
  | nil => simp [parseArgs, kwPairs, posTokens]
  | cons t rest ih =>
    by_cases hct : t.contains '=' = true
    · have hlen := hwf t (List.mem_cons_self _ _) hct
      rcases hsp : splitOnChar '=' t with _ | ⟨k, tl⟩
      · exact absurd hsp (splitOnChar_ne_nil _ _)
      · rcases tl with _ | ⟨v, tl2⟩
        · rw [hsp] at hlen; simp at hlen
        · rcases tl2 with _ | _
          · have hkw : kwPairs (t :: rest) = (k, v) :: kwPairs rest := by
              simp only [kwPairs, List.filterMap_cons, hct, hsp]
              rfl
            have hpos : posTokens (t :: rest) = posTokens rest := by
              simp only [posTokens, List.filter_cons, hct, Bool.not_true]
              rfl
            rw [hkw] at hnd
            have hknotin : k ∉ kw0.map Prod.fst := by
              intro hkin
              rcases (List.nodup_append.mp (by simpa using hnd)) with ⟨_, _, hdisj⟩
              exact hdisj hkin (by simp)
            have hnd3 : (((kw0 ++ [(k, v)]) ++ kwPairs rest).map Prod.fst).Nodup := by
              rw [List.append_assoc]
              simpa using hnd
            rw [parseArgs, if_pos hct, hsp]
            dsimp only
            rw [assoc_find?_eq_none kw0 k hknotin]
            simp only [Option.isSome_none, Bool.false_eq_true, if_false]
            rw [ih (kw0 ++ [(k, v)]) pos0
              (fun t2 ht2 => hwf t2 (List.mem_cons_of_mem _ ht2)) hnd3]
            rw [hkw, hpos]
            simp [List.append_assoc]
          · rw [hsp] at hlen; simp at hlen
    · have hct2 : t.contains '=' = false := by
        cases h2 : t.contains '=' with
        | true => exact absurd h2 hct
        | false => rfl
      have hkw : kwPairs (t :: rest) = kwPairs rest := by
        simp only [kwPairs, List.filterMap_cons, hct2]
        rfl
      have hpos : posTokens (t :: rest) = t :: posTokens rest := by
        simp only [posTokens, List.filter_cons, hct2, Bool.not_false]
        rfl
      rw [parseArgs, if_neg (by rw [hct2]; simp)]
      rw [ih kw0 (pos0 ++ [t])
        (fun t2 ht2 => hwf t2 (List.mem_cons_of_mem _ ht2))
        (by rw [hkw] at hnd; exact hnd)]
      rw [hkw, hpos]
      simp

/-- `Command.__init__` on a grammar-conforming command string: name after
the marker, positional tokens in order, keyword pairs in insertion order,
nothing accessed yet. -/
theorem parseCommand_ok (cmd_str name : Str) (tokens : List Str)
    (hsplit : (splitOnChar ' ' cmd_str).filter (fun e => !(e.isEmpty)) =
      ('#' :: name) :: tokens)
    (hwf : ∀ t ∈ tokens, t.contains '=' = true → (splitOnChar '=' t).length = 2)
    (hnd : ((kwPairs tokens).map Prod.fst).Nodup) :
    parseCommand cmd_str = .ok
      { cmd_str := cmd_str, cmd := name, pos_args := posTokens tokens,
        kw_args := kwPairs tokens, pos_args_accessed := [],
        kw_args_accessed := [] } := by
  unfold parseCommand
  rw [hsplit]
  have hsw : strStartsWith ('#' :: name) (str "#") = true := by
    simp [strStartsWith, str]
  dsimp only
  rw [hsw]
  simp only [if_true]
  rw [parseArgs_ok cmd_str tokens [] [] hwf (by simpa using hnd)]
  simp [Except.map]


/-- C5: for every command string conforming to the grammar (`#name` plus
whitespace-separated positional tokens and `key=value` tokens with distinct
keys), constructing a `Command` and reading back every positional index via
`get_pos_arg` and every keyword key via `get_kw_arg` yields exactly the
original argument tokens verbatim, as raw strings. -/
theorem command_roundtrip (cmd_str name : Str) (tokens : List Str)
    (hsplit : (splitOnChar ' ' cmd_str).filter (fun e => !(e.isEmpty)) =
      ('#' :: name) :: tokens)
    (hwf : ∀ t ∈ tokens, t.contains '=' = true → (splitOnChar '=' t).length = 2)
    (hnd : ((kwPairs tokens).map Prod.fst).Nodup) :
    ∃ c, parseCommand cmd_str = .ok c ∧
      c.pos_args = posTokens tokens ∧
      (∀ i desc (h : i < (posTokens tokens).length),
        ∃ c2, c.get_pos_arg i desc = .ok ((posTokens tokens).get ⟨i, h⟩, c2)) ∧
      (∀ t ∈ tokens, t.contains '=' = true →
        ∃ k v, splitOnChar '=' t = [k, v] ∧ t = k ++ '=' :: v ∧
          ∀ desc dflt, ∃ c2, c.get_kw_arg k desc dflt = .ok (v, c2)) := by
  refine ⟨_, parseCommand_ok cmd_str name tokens hsplit hwf hnd, rfl, ?_, ?_⟩
  · intro i desc h
    refine ⟨Command.mk cmd_str name (posTokens tokens) (kwPairs tokens) [i] [], ?_⟩
    unfold Command.get_pos_arg
    dsimp only
    rw [dif_neg (Nat.not_le.mpr h)]
  · intro t ht hct
    have hlen := hwf t ht hct
    rcases hsp : splitOnChar '=' t with _ | ⟨k, tl⟩
    · exact absurd hsp (splitOnChar_ne_nil _ _)
    rcases tl with _ | ⟨v, tl2⟩
    · rw [hsp] at hlen; simp at hlen
    rcases tl2 with _ | ⟨w, tl3⟩
    · refine ⟨k, v, rfl, ?_, ?_⟩
      · have hjoin := intercalate_splitOnChar '=' t
        rw [hsp] at hjoin
        rw [← hjoin]
        simp [List.intercalate]
      · intro desc dflt
        have hmem : (k, v) ∈ kwPairs tokens := by
          rw [kwPairs]
          refine List.mem_filterMap.mpr ⟨t, ht, ?_⟩
          simp [hct, hsp]
          simpa using hct
        have hfind := assoc_find?_eq_some (kwPairs tokens) k v hnd hmem
        refine ⟨Command.mk cmd_str name (posTokens tokens) (kwPairs tokens) [] [k], ?_⟩
        unfold Command.get_kw_arg
        dsimp only
        rw [hfind]
    · rw [hsp] at hlen; simp at hlen

/-- Witness for C5 on `#cmd a b=c d`: both positional tokens and the keyword
token round-trip verbatim. -/
theorem command_roundtrip_witness :
    ∃ c, parseCommand (str "#cmd a b=c d") = .ok c ∧
      c.pos_args = posTokens [str "a", str "b=c", str "d"] ∧
      (∀ i desc (h : i < (posTokens [str "a", str "b=c", str "d"]).length),
        ∃ c2, c.get_pos_arg i desc =
          .ok ((posTokens [str "a", str "b=c", str "d"]).get ⟨i, h⟩, c2)) ∧
      (∀ t ∈ [str "a", str "b=c", str "d"], t.contains '=' = true →
        ∃ k v, splitOnChar '=' t = [k, v] ∧ t = k ++ '=' :: v ∧
          ∀ desc dflt, ∃ c2, c.get_kw_arg k desc dflt = .ok (v, c2)) :=
  command_roundtrip (str "#cmd a b=c d") (str "cmd")
    [str "a", str "b=c", str "d"] (by decide) (by decide) (by decide)


/-- Joining chunks ignores empty chunks. -/
theorem flatten_filter_isEmpty (l : List Str) :
    (l.filter (fun t => !(t.isEmpty))).flatten = l.flatten := by
  induction l with
  | nil => rfl
  | cons t ts ih =>
    by_cases h : t = []
    · subst h
      simpa using ih
    · have : t.isEmpty = false := by
        cases t with
        | nil => exact absurd rfl h
        | cons a as => rfl
      simp [List.filter_cons, this, ih]

/-- C9 (amended): `get_text_contents` visits the root and, recursively, the
children of visited text/tspan nodes only; it returns the concatenation, in
document order, of the direct text of the visited text/tspan nodes, fails
exactly when some visited node has a known-but-unsupported tag (naming the
first one), and ignores every other visited node together with its entire
subtree. -/
theorem getTextContents_visited_description (e : Elt) :
    getTextContents e = match firstBadVisited e with
      | some tg => .error (unsupportedMsg tg)
      | none => .ok (visitedTexts e).flatten := by
  rw [getTextContents, processChild_eq e]
  cases firstBadVisited e with
  | some tg => rfl
  | none =>
    show Except.ok ((visitedTexts e).filter (fun t => !(t.isEmpty))).flatten = _
    rw [flatten_filter_isEmpty]

/-- A group node with direct text and an unsupported-kind child. -/
def exC9 : Elt :=
  Elt.mk (str "g") [] (some (str "hi")) [Elt.mk (str "tref") [] none []]

/-- Counterexample to C9 as stated: on a root whose tag is not text/tspan,
`get_text_contents` returns the empty string, neither including the root's
direct text nor failing on the `tref` descendant. -/
theorem getTextContents_counterexample :
    getTextContents exC9 = .ok [] ∧
    exC9.text = some (str "hi") ∧ str "hi" ≠ [] ∧
    (∃ child, child ∈ exC9.children ∧ stripTag child.tag ∈ badTags) := by
  refine ⟨rfl, rfl, by decide, Elt.mk (str "tref") [] none [], ?_, by decide⟩
  exact List.mem_cons_self _ _


/-- The replacement step of `AreaFilter.apply` once the rectangle and text
children are identified: extract the text content, call `replace`; the
`None` sentinel leaves the group untouched, a list removes the two original
children and appends the returned nodes, preserving tag/attributes. -/
def areaReplaceStep (replace : Str → Elt → Option (List Elt)) (e rect_elt text_elt : Elt) :
    Except Str Elt := do
  let command_text ← getTextContents text_elt
  match replace command_text rect_elt with
  | none => .ok e
  | some new_elts => .ok (Elt.mk e.tag e.attrs e.text new_elts)

/-- `AreaFilter.apply`: triggers only on a group with exactly two children,
one `rect` and one `text`, in either order. -/
def areaApply (replace : Str → Elt → Option (List Elt)) (e : Elt) : Except Str Elt :=
  if stripTag e.tag ≠ str "g" ∨ e.children.length ≠ 2 then .ok e
  else match e.children with
    | [c0, c1] =>
      if stripTag c0.tag = str "rect" ∧ stripTag c1.tag = str "text" then
        areaReplaceStep replace e c0 c1
      else if stripTag c0.tag = str "text" ∧ stripTag c1.tag = str "rect" then
        areaReplaceStep replace e c1 c0
      else .ok e
    | _ => .ok e

/-- C4: `AreaFilter.apply` triggers only on a generic group with exactly two
children, one rectangle and one text node, in either order; the `None`
sentinel leaves the group entirely unchanged; a returned (possibly empty)
list replaces the two original children by the returned nodes in order,
preserving the group's tag, attributes and text; and the two child orders
produce identical replacement output. -/
theorem areaFilter_dispatch (replace : Str → Elt → Option (List Elt)) :
    (∀ e, stripTag e.tag ≠ str "g" ∨ e.children.length ≠ 2 →
      areaApply replace e = .ok e) ∧
    (∀ tag attrs text c0 c1, stripTag tag = str "g" →
      ¬ (stripTag c0.tag = str "rect" ∧ stripTag c1.tag = str "text") →
      ¬ (stripTag c0.tag = str "text" ∧ stripTag c1.tag = str "rect") →
      areaApply replace (Elt.mk tag attrs text [c0, c1]) =
        .ok (Elt.mk tag attrs text [c0, c1])) ∧
    (∀ tag attrs text rect txt s, stripTag tag = str "g" →
      stripTag rect.tag = str "rect" → stripTag txt.tag = str "text" →
      getTextContents txt = .ok s → replace s rect = none →
      areaApply replace (Elt.mk tag attrs text [rect, txt]) =
        .ok (Elt.mk tag attrs text [rect, txt]) ∧
      areaApply replace (Elt.mk tag attrs text [txt, rect]) =
        .ok (Elt.mk tag attrs text [txt, rect])) ∧
    (∀ tag attrs text rect txt s l, stripTag tag = str "g" →
      stripTag rect.tag = str "rect" → stripTag txt.tag = str "text" →
      getTextContents txt = .ok s → replace s rect = some l →
      areaApply replace (Elt.mk tag attrs text [rect, txt]) =
        .ok (Elt.mk tag attrs text l) ∧
      areaApply replace (Elt.mk tag attrs text [txt, rect]) =
        .ok (Elt.mk tag attrs text l)) := by
  have hrt : ∀ (rect txt : Elt), stripTag rect.tag = str "rect" →
      stripTag txt.tag = str "text" →
      ¬ (stripTag rect.tag = str "text" ∧ stripTag txt.tag = str "rect") := by
    intro rect txt hr ht hc
    rw [hr] at hc
    exact absurd hc.1 (by decide)
  refine ⟨?_, ?_, ?_, ?_⟩
  · intro e h
    rw [areaApply, if_pos h]
  · intro tag attrs text c0 c1 htag h1 h2
    rw [areaApply, if_neg (by simp [Elt.tag, Elt.children, htag])]
    dsimp only [Elt.children]
    rw [if_neg h1, if_neg h2]
  · intro tag attrs text rect txt s htag hr ht hgtc hrep
    constructor
    · rw [areaApply, if_neg (by simp [Elt.tag, Elt.children, htag])]
      dsimp only [Elt.children]
      rw [if_pos ⟨hr, ht⟩]
      rw [areaReplaceStep]
      rw [hgtc]
      show (match replace s rect with
        | none => Except.ok (Elt.mk tag attrs text [rect, txt])
        | some new_elts => _) = _
      rw [hrep]
    · rw [areaApply, if_neg (by simp [Elt.tag, Elt.children, htag])]
      dsimp only [Elt.children]
      rw [if_neg (hrt rect txt hr ht ∘ fun h => ⟨h.2, h.1⟩), if_pos ⟨ht, hr⟩]
      rw [areaReplaceStep]
      rw [hgtc]
      show (match replace s rect with
        | none => Except.ok (Elt.mk tag attrs text [txt, rect])
        | some new_elts => _) = _
      rw [hrep]
  · intro tag attrs text rect txt s l htag hr ht hgtc hrep
    constructor
    · rw [areaApply, if_neg (by simp [Elt.tag, Elt.children, htag])]
      dsimp only [Elt.children]
      rw [if_pos ⟨hr, ht⟩]
      rw [areaReplaceStep]
      rw [hgtc]
      show (match replace s rect with
        | none => Except.ok (Elt.mk tag attrs text [rect, txt])
        | some new_elts => Except.ok (Elt.mk (Elt.mk tag attrs text [rect, txt]).tag
            (Elt.mk tag attrs text [rect, txt]).attrs
            (Elt.mk tag attrs text [rect, txt]).text new_elts)) = _
      rw [hrep]
      rfl
    · rw [areaApply, if_neg (by simp [Elt.tag, Elt.children, htag])]
      dsimp only [Elt.children]
      rw [if_neg (hrt rect txt hr ht ∘ fun h => ⟨h.2, h.1⟩), if_pos ⟨ht, hr⟩]
      rw [areaReplaceStep]
      rw [hgtc]
      show (match replace s rect with
        | none => Except.ok (Elt.mk tag attrs text [txt, rect])
        | some new_elts => Except.ok (Elt.mk (Elt.mk tag attrs text [txt, rect]).tag
            (Elt.mk tag attrs text [txt, rect]).attrs
            (Elt.mk tag attrs text [txt, rect]).text new_elts)) = _
      rw [hrep]
      rfl


/-- Witness for C4: a group whose command text `#x` matches, with the empty
replacement list, in both child orders, yields the same emptied group with
its attributes preserved. -/
theorem areaFilter_dispatch_witness :
    areaApply (fun s _ => if s = str "#x" then some [] else none)
        (Elt.mk (str "g") [(str "id", str "grp")] none
          [Elt.mk (str "rect") [] none [], Elt.mk (str "text") [] (some (str "#x")) []]) =
      .ok (Elt.mk (str "g") [(str "id", str "grp")] none []) ∧
    areaApply (fun s _ => if s = str "#x" then some [] else none)
        (Elt.mk (str "g") [(str "id", str "grp")] none
          [Elt.mk (str "text") [] (some (str "#x")) [], Elt.mk (str "rect") [] none []]) =
      .ok (Elt.mk (str "g") [(str "id", str "grp")] none []) :=
  (areaFilter_dispatch (fun s _ => if s = str "#x" then some [] else none)).2.2.2
    (str "g") [(str "id", str "grp")] none
    (Elt.mk (str "rect") [] none []) (Elt.mk (str "text") [] (some (str "#x")) [])
    (str "#x") [] rfl rfl rfl rfl rfl


/-- A `text` child whose extracted content starts with `#showeq`. -/
def isShowCmdElt (c : Elt) : Prop :=
  stripTag c.tag = str "text" ∧
    ∃ s, getTextContents c = .ok s ∧ strStartsWith s (str "#showeq") = true

/-- The scan loop of `ShowFilter.apply`: walk the children in order; for each
`text` child extract its content (propagating extraction failures); a second
`#showeq` match raises the multiple-command assertion; on success return the
command text and the index of the command child, if any. -/
def findShowAux : List Elt → Nat → Option (Str × Nat) → Except Str (Option (Str × Nat))
  | [], _, found => .ok found
  | subelt :: rest, i, found =>
    if stripTag subelt.tag = str "text" then
      match getTextContents subelt with
      | .error msg => .error msg
      | .ok s =>
        if strStartsWith s (str "#showeq") then
          match found with
          | some _ => .error (str "Found multiple #show command in same group")
          | none => findShowAux rest (i + 1) (some (s, i))
        else findShowAux rest (i + 1) found
    else findShowAux rest (i + 1) found

/-- The allow-list read loop of `ShowFilter.apply`: `get_pos_arg i` for each
listed index, threading the access-marked command. -/
def readAllowed : Command → List Nat → Except Str (List Str × Command)
  | c, [] => .ok ([], c)
  | c, i :: is =>
    match c.get_pos_arg i (str "allowed value") with
    | .error msg => .error msg
    | .ok (v, c2) =>
      match readAllowed c2 is with
      | .error msg => .error msg
      | .ok (vs, c3) => .ok (v :: vs, c3)

/-- `ShowFilter.apply`: on a group, find the unique `#showeq` text child
(failing on multiples), remove it, parse it; clear the group when the
checked value (positional argument 0) is not among the remaining positional
arguments, otherwise keep the remaining content. -/
def showApply (e : Elt) : Except Str Elt :=
  if stripTag e.tag ≠ str "g" then .ok e
  else
    match findShowAux e.children 0 none with
    | .error msg => .error msg
    | .ok none => .ok e
    | .ok (some (cmd_text, idx)) =>
      match parseCommand cmd_text with
      | .error msg => .error msg
      | .ok cmd =>
        match cmd.get_pos_arg 0 (str "item to check") with
        | .error msg => .error msg
        | .ok (str_check, cmd2) =>
          match readAllowed cmd2 (List.range' 1 (cmd2.get_num_pos_args - 1)) with
          | .error msg => .error msg
          | .ok (str_in, _) =>
            if str_check ∉ str_in then .ok (Elt.mk e.tag [] none [])
            else .ok (Elt.mk e.tag e.attrs e.text (e.children.eraseIdx idx))

/-- Reading positional indices `s, s+1, ..., s+m-1` succeeds when in range
and yields that slice of the positional arguments. -/
theorem readAllowed_range (m : Nat) : ∀ (s : Nat) (c : Command),
    s + m ≤ c.pos_args.length →
    ∃ c2, readAllowed c (List.range' s m) = .ok ((c.pos_args.drop s).take m, c2) := by
  induction m with
  | zero =>
    intro s c h
    exact ⟨c, by simp [readAllowed]⟩
  | succ m ih =>
    intro s c h
    have hs : s < c.pos_args.length := by omega
    rw [List.range'_succ]
    rw [readAllowed]
    rw [show c.get_pos_arg s (str "allowed value") =
      .ok (c.pos_args.get ⟨s, hs⟩, Command.mk c.cmd_str c.cmd c.pos_args c.kw_args
        (s :: c.pos_args_accessed) c.kw_args_accessed) from by
        unfold Command.get_pos_arg
        rw [dif_neg (Nat.not_le.mpr hs)]]
    dsimp only
    rcases ih (s + 1) (Command.mk c.cmd_str c.cmd c.pos_args c.kw_args
        (s :: c.pos_args_accessed) c.kw_args_accessed)
        (by show s + 1 + m ≤ c.pos_args.length; omega) with ⟨c2, hc2⟩
    rw [show (Command.mk c.cmd_str c.cmd c.pos_args c.kw_args
      (s :: c.pos_args_accessed) c.kw_args_accessed).pos_args = c.pos_args from rfl] at hc2
    rw [hc2]
    refine ⟨c2, ?_⟩
    have hdrop : c.pos_args.drop s = c.pos_args.get ⟨s, hs⟩ :: c.pos_args.drop (s + 1) := by
      rw [List.drop_eq_getElem_cons hs]
      rfl
    rw [hdrop]
    rfl


/-- Once a command has been found, any further `#showeq` text child (or any
failing text extraction) makes the scan fail. -/
theorem findShowAux_found_err (l : List Elt) : ∀ (i : Nat) (fnd : Str × Nat),
    (∃ c ∈ l, isShowCmdElt c) →
    ∃ msg, findShowAux l i (some fnd) = .error msg := by
  induction l with
  | nil =>
    rintro i fnd ⟨c, hc, _⟩
    exact absurd hc (List.not_mem_nil c)
  | cons h rest ih =>
    rintro i fnd ⟨c, hcmem, hcshow⟩
    rw [findShowAux]
    by_cases htag : stripTag h.tag = str "text"
    · rw [if_pos htag]
      cases hgtc : getTextContents h with
      | error msg => exact ⟨msg, rfl⟩
      | ok s =>
        dsimp only
        by_cases hsw : strStartsWith s (str "#showeq") = true
        · rw [if_pos hsw]
          exact ⟨_, rfl⟩
        · rw [if_neg hsw]
          refine ih (i + 1) fnd ⟨c, ?_, hcshow⟩
          rcases List.mem_cons.mp hcmem with rfl | hmem2
          · rcases hcshow with ⟨_, s2, hgtc2, hsw2⟩
            rw [hgtc] at hgtc2
            cases hgtc2
            exact absurd hsw2 hsw
          · exact hmem2
    · rw [if_neg htag]
      refine ih (i + 1) fnd ⟨c, ?_, hcshow⟩
      rcases List.mem_cons.mp hcmem with rfl | hmem2
      · exact absurd hcshow.1 htag
      · exact hmem2

/-- Two `#showeq` text children in the same child list make the scan fail. -/
theorem findShowAux_two_err (pre : List Elt) : ∀ (mid post : List Elt) (c1 c2 : Elt) (i : Nat),
    isShowCmdElt c1 → isShowCmdElt c2 →
    ∃ msg, findShowAux (pre ++ c1 :: mid ++ c2 :: post) i none = .error msg := by
  induction pre with
  | nil =>
    intro mid post c1 c2 i h1 h2
    rcases h1 with ⟨htag1, s1, hgtc1, hsw1⟩
    rw [List.nil_append]
    simp only [findShowAux]
    rw [if_pos htag1, hgtc1]
    dsimp only
    rw [if_pos hsw1]
    exact findShowAux_found_err (mid ++ c2 :: post) (i + 1) (s1, i)
      ⟨c2, by simp, h2⟩
  | cons p pre2 ih =>
    intro mid post c1 c2 i h1 h2
    rw [List.cons_append]
    simp only [findShowAux]
    by_cases htp : stripTag p.tag = str "text"
    · rw [if_pos htp]
      cases hg : getTextContents p with
      | error msg => exact ⟨msg, rfl⟩
      | ok sp =>
        dsimp only
        by_cases hswp : strStartsWith sp (str "#showeq") = true
        · rw [if_pos hswp]
          exact findShowAux_found_err (pre2 ++ c1 :: mid ++ c2 :: post) (i + 1) (sp, i)
            ⟨c1, by simp, h1⟩
        · rw [if_neg hswp]
          exact ih mid post c1 c2 (i + 1) h1 h2
    · rw [if_neg htp]
      exact ih mid post c1 c2 (i + 1) h1 h2


/-- C6: on a group whose child scan finds exactly one `#showeq` command text
child (at index `idx`), the filter always removes that command node, and it
clears the whole group exactly when the checked value (positional argument
0) is not a member of the allow-list formed by the remaining positional
arguments; the filter fails whenever two such command children are present. -/
theorem showFilter_conditional_visibility :
    (∀ e cmdText idx cmd check allow,
      stripTag e.tag = str "g" →
      findShowAux e.children 0 none = .ok (some (cmdText, idx)) →
      parseCommand cmdText = .ok cmd →
      cmd.pos_args = check :: allow →
      showApply e = .ok (if check ∈ allow
        then Elt.mk e.tag e.attrs e.text (e.children.eraseIdx idx)
        else Elt.mk e.tag [] none [])) ∧
    (∀ e pre mid post c1 c2,
      stripTag e.tag = str "g" →
      e.children = pre ++ c1 :: mid ++ c2 :: post →
      isShowCmdElt c1 → isShowCmdElt c2 →
      ∃ msg, showApply e = .error msg) := by
  constructor
  · intro e cmdText idx cmd check allow htag hfind hparse hpos
    rcases cmd with ⟨cs, cn, cp, ck, cpa, cka⟩
    have hp2 : cp = check :: allow := hpos
    subst hp2
    unfold showApply
    rw [if_neg (by simp [htag])]
    rw [hfind]
    dsimp only
    rw [hparse]
    dsimp only
    rw [show Command.get_pos_arg
        (Command.mk cs cn (check :: allow) ck cpa cka) 0 (str "item to check") =
        .ok (check, Command.mk cs cn (check :: allow) ck (0 :: cpa) cka) from by
      unfold Command.get_pos_arg
      rw [dif_neg (by simp)]
      rfl]
    dsimp only
    rcases readAllowed_range allow.length 1
        (Command.mk cs cn (check :: allow) ck (0 :: cpa) cka)
        (by show 1 + allow.length ≤ (check :: allow).length; simp; omega) with ⟨c2, hc2⟩
    rw [show (((Command.mk cs cn (check :: allow) ck (0 :: cpa) cka).pos_args.drop 1).take
        allow.length) = allow from by simp] at hc2
    rw [show (Command.mk cs cn (check :: allow) ck (0 :: cpa) cka).get_num_pos_args - 1 =
      allow.length from by simp [Command.get_num_pos_args]]
    rw [hc2]
    dsimp only
    by_cases hmem : check ∈ allow
    · rw [if_neg (not_not_intro hmem), if_pos hmem]
    · rw [if_pos hmem, if_neg hmem]
  · intro e pre mid post c1 c2 htag hch h1 h2
    rcases findShowAux_two_err pre mid post c1 c2 0 h1 h2 with ⟨msg, herr⟩
    refine ⟨msg, ?_⟩
    unfold showApply
    rw [if_neg (by simp [htag])]
    rw [hch, herr]

/-- Witness for C6: `#showeq A A B` (checked value `A` in the allow-list)
keeps the group content minus the command node; `#showeq A B C` clears it. -/
theorem showFilter_conditional_visibility_witness :
    showApply (Elt.mk (str "g") [(str "id", str "grp")] none
        [Elt.mk (str "rect") [] none [],
         Elt.mk (str "text") [] (some (str "#showeq A A B")) []]) =
      .ok (Elt.mk (str "g") [(str "id", str "grp")] none
        [Elt.mk (str "rect") [] none []]) ∧
    showApply (Elt.mk (str "g") [(str "id", str "grp")] none
        [Elt.mk (str "rect") [] none [],
         Elt.mk (str "text") [] (some (str "#showeq A B C")) []]) =
      .ok (Elt.mk (str "g") [] none []) := by
  constructor
  · have h := (showFilter_conditional_visibility).1
      (Elt.mk (str "g") [(str "id", str "grp")] none
        [Elt.mk (str "rect") [] none [],
         Elt.mk (str "text") [] (some (str "#showeq A A B")) []])
      (str "#showeq A A B") 1
      (Command.mk (str "#showeq A A B") (str "showeq")
        [str "A", str "A", str "B"] [] [] [])
      (str "A") [str "A", str "B"] rfl rfl rfl rfl
    rw [if_pos (by decide)] at h
    exact h
  · have h := (showFilter_conditional_visibility).1
      (Elt.mk (str "g") [(str "id", str "grp")] none
        [Elt.mk (str "rect") [] none [],
         Elt.mk (str "text") [] (some (str "#showeq A B C")) []])
      (str "#showeq A B C") 1
      (Command.mk (str "#showeq A B C") (str "showeq")
        [str "A", str "B", str "C"] [] [] [])
      (str "A") [str "B", str "C"] rfl rfl rfl rfl
    rw [if_neg (by decide)] at h
    exact h


/-- A character allowed inside a `%(key)` reference: the regex character
class `[^(^)]` of `TextFilter.apply` excludes `(`, `^` and `)`. -/
def isKeyChar (c : Char) : Bool := !(c = '(' || c = '^' || c = ')')

/-- Scan a candidate key after `%(`: characters of the class until `)`.
Returns the key (possibly empty) and the remainder after `)`, or `none`
when a disallowed character or the end of input intervenes. -/
def scanKey : Str → Option (Str × Str)
  | [] => none
  | c :: cs =>
    if c = ')' then some ([], cs)
    else if isKeyChar c then
      match scanKey cs with
      | some (k, after) => some (c :: k, after)
      | none => none
    else none

/-- A successful key scan consumes at least the closing `)`. -/
theorem scanKey_some_length (l : Str) : ∀ k after, scanKey l = some (k, after) →
    after.length < l.length := by
  induction l with
  | nil => intro k after h; simp [scanKey] at h
  | cons c cs ih =>
    intro k after h
    rw [scanKey] at h
    by_cases hc : c = ')'
    · rw [if_pos hc] at h
      obtain ⟨rfl, rfl⟩ : ([] : Str) = k ∧ cs = after := by
        simpa using h
      simp
    · rw [if_neg hc] at h
      by_cases hk : isKeyChar c = true
      · rw [if_pos hk] at h
        cases hsk : scanKey cs with
        | none => rw [hsk] at h; simp at h
        | some p =>
          rw [hsk] at h
          rcases p with ⟨k2, after2⟩
          obtain ⟨rfl, rfl⟩ : c :: k2 = k ∧ after2 = after := by
            simpa using h
          have := ih k2 after2 hsk
          simp only [List.length_cons]
          omega
      · rw [if_neg hk] at h
        simp at h

/-- The substitution of `TextFilter.apply`: an embedding of
`re.sub(r"%\(([^(^)]+)\)", ...)` with its left-to-right, non-overlapping
semantics.  At each position: `%(` followed by a non-empty run of key
characters and `)` is replaced by `row[key]` (failing, naming the key, when
absent); any position that does not start such a match emits one character
and continues; replacement values are not rescanned. -/
def textSubst (row : List (Str × Str)) : Str → Except Str Str
  | [] => .ok []
  | c :: rest =>
    if c = '%' then
      match rest with
      | '(' :: rest2 =>
        match _hsk : scanKey rest2 with
        | some (k, after) =>
          if k = [] then (textSubst row ('(' :: rest2)).map (fun t => c :: t)
          else
            match row.find? (fun kv => kv.1 == k) with
            | none => .error (str "missing key " ++ k)
            | some kv => (textSubst row after).map (fun t => kv.2 ++ t)
        | none => (textSubst row ('(' :: rest2)).map (fun t => c :: t)
      | other => (textSubst row other).map (fun t => c :: t)
    else (textSubst row rest).map (fun t => c :: t)
termination_by s => s.length
decreasing_by
  all_goals simp_wf
  all_goals first
    | omega
    | (have hsl := scanKey_some_length rest2 _ _ _hsk
       omega)

/-- The tag kinds on which `TextFilter.apply` substitutes. -/
def textFilterTags : List Str :=
  [str "text", str "tspan", str "flowRoot", str "flowPara", str "flowSpan"]

/-- `TextFilter.apply`: on a text-kind node with non-empty direct text,
substitute the text; otherwise leave the node unchanged. -/
def textApply (row : List (Str × Str)) : Elt → Except Str Elt
  | .mk tag attrs text children =>
    if stripTag tag ∈ textFilterTags then
      match text with
      | some t =>
        if t ≠ [] then
          (textSubst row t).map (fun t2 => Elt.mk tag attrs (some t2) children)
        else .ok (Elt.mk tag attrs text children)
      | none => .ok (Elt.mk tag attrs text children)
    else .ok (Elt.mk tag attrs text children)


/-- A template text decomposed into literal and `%(key)` reference segments
(the shape the specification describes substitution on). -/
inductive Seg where
  | lit (s : Str)
  | ref (k : Str)
deriving DecidableEq

/-- Rendering a segment back to raw text. -/
def renderSeg : Seg → Str
  | .lit s => s
  | .ref k => '%' :: '(' :: (k ++ [')'])

/-- Rendering a segment list. -/
def renderSegs (segs : List Seg) : Str := (segs.map renderSeg).flatten

/-- The referenced keys, in order of occurrence. -/
def segKeys (segs : List Seg) : List Str :=
  segs.filterMap (fun sg => match sg with | .ref k => some k | .lit _ => none)

/-- The substitution result as the specification words it: fail naming the
first referenced key absent from the row, else replace every reference by
its row value. -/
def substSpec (row : List (Str × Str)) (segs : List Seg) : Except Str Str :=
  match (segKeys segs).find? (fun k => !((row.find? (fun kv => kv.1 == k)).isSome)) with
  | some k => .error (str "missing key " ++ k)
  | none => .ok ((segs.map (fun sg => match sg with
      | .lit t => t
      | .ref k => ((row.find? (fun kv => kv.1 == k)).map Prod.snd).getD [])).flatten)

/-- `%`-free text passes through the substitution verbatim. -/
theorem textSubst_append_lit (row : List (Str × Str)) (s t : Str)
    (h : ∀ c ∈ s, c ≠ '%') :
    textSubst row (s ++ t) = (textSubst row t).map (fun r => s ++ r) := by
  induction s with
  | nil =>
    rw [List.nil_append]
    cases textSubst row t <;> simp [Except.map]
  | cons c s2 ih =>
    have hc : c ≠ '%' := h c (List.mem_cons_self _ _)
    have ih2 := ih (fun c2 hc2 => h c2 (List.mem_cons_of_mem _ hc2))
    rw [List.cons_append]
    rw [show textSubst row (c :: (s2 ++ t)) =
        (textSubst row (s2 ++ t)).map (fun r => c :: r) from by
      rw [textSubst.eq_def]
      dsimp only
      rw [if_neg hc]]
    rw [ih2]
    cases textSubst row t <;> simp [Except.map]

/-- Scanning a well-formed key run stops exactly at its closing `)`. -/
theorem scanKey_render (k t : Str) (hall : ∀ c ∈ k, isKeyChar c = true) :
    scanKey (k ++ ')' :: t) = some (k, t) := by
  induction k with
  | nil =>
    rw [List.nil_append, scanKey, if_pos rfl]
  | cons c k2 ih =>
    have hkc : isKeyChar c = true := hall c (List.mem_cons_self _ _)
    have hc : c ≠ ')' := by
      intro hc
      rw [hc] at hkc
      exact absurd hkc (by decide)
    rw [List.cons_append, scanKey, if_neg hc, if_pos hkc,
      ih (fun c2 hc2 => hall c2 (List.mem_cons_of_mem _ hc2))]

/-- A `%(key)` occurrence substitutes the row value of `key`, or fails
naming `key` when it is absent. -/
theorem textSubst_ref (row : List (Str × Str)) (k t : Str) (hk : k ≠ [])
    (hall : ∀ c ∈ k, isKeyChar c = true) :
    textSubst row ('%' :: '(' :: (k ++ ')' :: t)) =
      match row.find? (fun kv => kv.1 == k) with
      | none => .error (str "missing key " ++ k)
      | some kv => (textSubst row t).map (fun r => kv.2 ++ r) := by
  rw [textSubst.eq_def]
  dsimp only
  rw [if_pos rfl]
  split
  · rename_i k2 after2 heq
    obtain rfl : after2 = k ++ ')' :: t := ((List.cons.inj heq).2).symm
    split
    · rename_i k3 after3 heq3
      rw [scanKey_render k t hall] at heq3
      have hp : (k, t) = (k3, after3) := Option.some.inj heq3
      obtain ⟨rfl, rfl⟩ : k3 = k ∧ after3 = t :=
        ⟨(congrArg Prod.fst hp).symm, (congrArg Prod.snd hp).symm⟩
      rw [if_neg hk]
    · rename_i heq3
      rw [scanKey_render k t hall] at heq3
      exact absurd heq3 (by simp)
  · rename_i other heq
    exact ((heq (k ++ ')' :: t) rfl)).elim


/-- The substitution agrees with the specification-shaped description on
every decomposed template text. -/
theorem textSubst_renderSegs (row : List (Str × Str)) (segs : List Seg)
    (hlit : ∀ s, Seg.lit s ∈ segs → ∀ c ∈ s, c ≠ '%')
    (href : ∀ k, Seg.ref k ∈ segs → k ≠ [] ∧ ∀ c ∈ k, isKeyChar c = true) :
    textSubst row (renderSegs segs) = substSpec row segs := by
  induction segs with
  | nil =>
    show textSubst row [] = substSpec row []
    rw [substSpec]
    simp [segKeys, textSubst]
  | cons sg rest ih =>
    have ih2 := ih (fun s hs => hlit s (List.mem_cons_of_mem _ hs))
      (fun k hk => href k (List.mem_cons_of_mem _ hk))
    cases sg with
    | lit s =>
      have hren : renderSegs (Seg.lit s :: rest) = s ++ renderSegs rest := by
        simp [renderSegs, renderSeg]
      rw [hren, textSubst_append_lit row s _ (hlit s (List.mem_cons_self _ _)), ih2]
      rw [substSpec, substSpec]
      have hkeys : segKeys (Seg.lit s :: rest) = segKeys rest := by
        simp [segKeys]
      rw [hkeys]
      cases (segKeys rest).find?
          (fun k => !((row.find? (fun kv => kv.1 == k)).isSome)) with
      | some k => rfl
      | none =>
        show Except.ok _ = Except.ok _
        simp [Except.map]
    | ref k =>
      rcases href k (List.mem_cons_self _ _) with ⟨hk, hall⟩
      have hren : renderSegs (Seg.ref k :: rest) =
          '%' :: '(' :: (k ++ ')' :: renderSegs rest) := by
        simp [renderSegs, renderSeg]
      rw [hren, textSubst_ref row k _ hk hall]
      cases hfk : row.find? (fun kv => kv.1 == k) with
      | none =>
        rw [substSpec]
        have : (segKeys (Seg.ref k :: rest)).find?
            (fun k2 => !((row.find? (fun kv => kv.1 == k2)).isSome)) = some k := by
          have hkeys : segKeys (Seg.ref k :: rest) = k :: segKeys rest := by
            simp [segKeys]
          rw [hkeys, List.find?_cons_of_pos]
          simp [hfk]
        rw [this]
      | some kv =>
        rw [ih2]
        rw [substSpec, substSpec]
        have hkeys : segKeys (Seg.ref k :: rest) = k :: segKeys rest := by
          simp [segKeys]
        rw [hkeys, List.find?_cons_of_neg]
        swap
        · simp [hfk]
        cases (segKeys rest).find?
            (fun k2 => !((row.find? (fun kv => kv.1 == k2)).isSome)) with
        | some k2 => rfl
        | none =>
          show Except.map _ (Except.ok _) = Except.ok _
          simp only [Except.map, Except.ok.injEq]
          have hmap : (Seg.ref k :: rest).map (fun sg => match sg with
              | .lit t => t
              | .ref k2 => ((row.find? (fun kv => kv.1 == k2)).map Prod.snd).getD []) =
            kv.2 :: rest.map (fun sg => match sg with
              | .lit t => t
              | .ref k2 => ((row.find? (fun kv => kv.1 == k2)).map Prod.snd).getD []) := by
            simp [hfk]
          rw [hmap]
          rfl


/-- C8: on a text-kind node with direct text, the filter substitutes every
`%(key)` occurrence with `row[key]` (the node text becomes the
specification-shaped result `substSpec`, which replaces every reference and
never leaves one unreplaced or silently empty), and whenever some
referenced key is absent from the row the substitution fails with an error
naming a missing key. -/
theorem textFilter_substitution (row : List (Str × Str)) (segs : List Seg)
    (tag : Str) (attrs : List (Str × Str)) (children : List Elt)
    (hlit : ∀ s, Seg.lit s ∈ segs → ∀ c ∈ s, c ≠ '%')
    (href : ∀ k, Seg.ref k ∈ segs → k ≠ [] ∧ ∀ c ∈ k, isKeyChar c = true)
    (htag : stripTag tag ∈ textFilterTags) (hne : renderSegs segs ≠ []) :
    textApply row (Elt.mk tag attrs (some (renderSegs segs)) children) =
      (substSpec row segs).map (fun t2 => Elt.mk tag attrs (some t2) children) ∧
    textSubst row (renderSegs segs) = substSpec row segs ∧
    ((∃ k, k ∈ segKeys segs ∧ row.find? (fun kv => kv.1 == k) = none) →
      ∃ k, k ∈ segKeys segs ∧ row.find? (fun kv => kv.1 == k) = none ∧
        textSubst row (renderSegs segs) = .error (str "missing key " ++ k)) := by
  have hmain := textSubst_renderSegs row segs hlit href
  refine ⟨?_, hmain, ?_⟩
  · rw [textApply, if_pos htag]
    rw [if_pos hne, hmain]
  · rintro ⟨k, hkmem, hkabs⟩
    have hsome : ((segKeys segs).find?
        (fun k2 => !((row.find? (fun kv => kv.1 == k2)).isSome))).isSome := by
      rw [List.find?_isSome]
      exact ⟨k, hkmem, by simp [hkabs]⟩
    rcases Option.isSome_iff_exists.mp hsome with ⟨k0, hk0⟩
    have hk0mem : k0 ∈ segKeys segs := List.mem_of_find?_eq_some hk0
    have hk0abs : row.find? (fun kv => kv.1 == k0) = none := by
      have := List.find?_some hk0
      cases hfk0 : row.find? (fun kv => kv.1 == k0) with
      | none => rfl
      | some kv =>
        rw [hfk0] at this
        simp at this
    refine ⟨k0, hk0mem, hk0abs, ?_⟩
    rw [hmain, substSpec, hk0]


/-- Witness for C8: the template `a %(x) b` over the row `x=1` substitutes
to `a 1 b`. -/
theorem textFilter_substitution_witness :
    textSubst [(str "x", str "1")]
      (renderSegs [Seg.lit (str "a "), Seg.ref (str "x"), Seg.lit (str " b")]) =
      .ok (str "a 1 b") := by
  have h := (textFilter_substitution [(str "x", str "1")]
    [Seg.lit (str "a "), Seg.ref (str "x"), Seg.lit (str " b")]
    (str "text") [] [] ?_ ?_ (by decide) (by decide)).2.1
  · rw [h]
    rfl
  · intro s hs
    simp only [List.mem_cons, List.not_mem_nil, or_false] at hs
    rcases hs with h | h | h
    · injection h with h2
      subst h2
      decide
    · exact absurd h (by simp)
    · injection h with h2
      subst h2
      decide
  · intro k hk
    simp only [List.mem_cons, List.not_mem_nil, or_false] at hk
    rcases hk with h | h | h
    · exact absurd h (by simp)
    · injection h with h2
      subst h2
      exact ⟨by decide, by decide⟩
    · exact absurd h (by simp)


/-- The style-attribute parse loop of `StyleFilter.replace`: each
semicolon-delimited chunk must split on `:` into exactly a key and a value
(AssertionError otherwise), and a repeated key is a template error.  The
accumulator keeps insertion order (`OrderedDict`). -/
def styleParseChunks : List Str → List (Str × Str) → Except Str (List (Str × Str))
  | [], acc => .ok acc
  | chunk :: rest, acc =>
    match splitOnChar ':' chunk with
    | [k, v] =>
      if (acc.find? (fun kv => kv.1 == k)).isSome then
        .error (str "Duplicate style key '" ++ k ++ str "' in template")
      else styleParseChunks rest (acc ++ [(k, v)])
    | _ => .error (str "AssertionError")

/-- `OrderedDict` assignment: overwrite in place when the key exists,
append otherwise. -/
def odInsert : List (Str × Str) → Str → Str → List (Str × Str)
  | [], k, v => [(k, v)]
  | kv :: rest, k, v =>
    if kv.1 == k then (kv.1, v) :: rest
    else kv :: odInsert rest k v

/-- Overlay every keyword pair onto the style mapping, in order. -/
def styleOverlay (d : List (Str × Str)) (kws : List (Str × Str)) : List (Str × Str) :=
  kws.foldl (fun a kv => odInsert a kv.1 kv.2) d

/-- Re-serialization of the style mapping (`';'.join('k:v')`). -/
def styleSerialize (d : List (Str × Str)) : Str :=
  List.intercalate [';'] (d.map (fun kv => kv.1 ++ ':' :: kv.2))

/-- The `#style` substitution on the rectangle's `style` attribute value
(`rect_elt.get('style', '')`): parse, overlay the command's keyword
arguments, re-serialize. -/
def styleReplace (kws : List (Str × Str)) (styleAttr : Option Str) : Except Str Str :=
  match styleParseChunks (splitOnChar ';' (styleAttr.getD [])) [] with
  | .error msg => .error msg
  | .ok d => .ok (styleSerialize (styleOverlay d kws))

/-- C10: a rectangle with no `style` attribute (or an empty one) makes the
`#style` filter fail: the empty string's single chunk does not split into
exactly one key and one value. -/
theorem styleFilter_missing_style_fails (kws : List (Str × Str)) :
    styleReplace kws none = .error (str "AssertionError") ∧
    styleReplace kws (some []) = .error (str "AssertionError") :=
  ⟨rfl, rfl⟩

/-- Counterexample to C7 as stated: with the well-formed style `a:b`, the
command keyword `c=x:y` succeeds once but makes the second application fail
(the re-serialized style `a:b;c:x:y` no longer parses), so applying twice
is not the same as applying once. -/
theorem styleFilter_idempotent_counterexample :
    styleReplace [(str "c", str "x:y")] (some (str "a:b")) = .ok (str "a:b;c:x:y") ∧
    styleReplace [(str "c", str "x:y")] (some (str "a:b;c:x:y")) =
      .error (str "AssertionError") :=
  ⟨rfl, rfl⟩


/-- A pair whose key and value avoid the style separators. -/
def cleanPair (kv : Str × Str) : Prop :=
  ';' ∉ kv.1 ∧ ':' ∉ kv.1 ∧ ';' ∉ kv.2 ∧ ':' ∉ kv.2

instance (kv : Str × Str) : Decidable (cleanPair kv) := by
  unfold cleanPair
  infer_instance

/-- Chunks produced by splitting never contain the separator. -/
theorem splitOnChar_chunks_not_mem (sep : Char) (l : Str) :
    ∀ chunk ∈ splitOnChar sep l, sep ∉ chunk := by
  induction l with
  | nil =>
    intro chunk hc
    simp only [splitOnChar, List.mem_singleton] at hc
    subst hc
    simp
  | cons c cs ih =>
    intro chunk hc
    simp only [splitOnChar] at hc
    rcases hsp : splitOnChar sep cs with _ | ⟨s, ss⟩
    · exact absurd hsp (splitOnChar_ne_nil sep cs)
    · rw [hsp] at hc
      dsimp only at hc
      by_cases hcs : c = sep
      · rw [if_pos hcs] at hc
        rcases List.mem_cons.mp hc with rfl | hc2
        · simp
        · exact ih chunk (hsp ▸ hc2)
      · rw [if_neg hcs] at hc
        rcases List.mem_cons.mp hc with rfl | hc2
        · intro hmem
          rcases List.mem_cons.mp hmem with rfl | hmem2
          · exact hcs rfl
          · exact ih s (hsp ▸ List.mem_cons_self _ _) hmem2
        · exact ih chunk (hsp ▸ List.mem_cons_of_mem _ hc2)

/-- A successful style parse extends the accumulator by one clean pair per
chunk, keeping the keys nodup. -/
theorem styleParseChunks_ok_inv (chunks : List Str) :
    ∀ (acc d : List (Str × Str)),
    styleParseChunks chunks acc = .ok d →
    (∀ c ∈ chunks, ';' ∉ c) →
    (∀ kv ∈ acc, cleanPair kv) →
    ((acc.map Prod.fst).Nodup) →
    (∀ kv ∈ d, cleanPair kv) ∧ (d.map Prod.fst).Nodup ∧
      d.length = acc.length + chunks.length := by
  induction chunks with
  | nil =>
    intro acc d h hch hacc hnd
    simp only [styleParseChunks, Except.ok.injEq] at h
    subst h
    exact ⟨hacc, hnd, by simp⟩
  | cons chunk rest ih =>
    intro acc d h hch hacc hnd
    rw [styleParseChunks] at h
    rcases hsp : splitOnChar ':' chunk with _ | ⟨k, tl⟩
    · exact absurd hsp (splitOnChar_ne_nil _ _)
    rcases tl with _ | ⟨v, tl2⟩
    · rw [hsp] at h; simp at h
    rcases tl2 with _ | _
    · rw [hsp] at h
      dsimp only at h
      by_cases hdup : (acc.find? (fun kv => kv.1 == k)).isSome
      · rw [if_pos hdup] at h
        simp at h
      · rw [if_neg hdup] at h
        have hknotin : k ∉ acc.map Prod.fst := by
          intro hkin
          rcases List.mem_map.mp hkin with ⟨kv2, hkv2, hfst⟩
          apply hdup
          rw [List.find?_isSome]
          exact ⟨kv2, hkv2, by simp [hfst]⟩
        have hchunk : chunk = k ++ ':' :: v := by
          have := intercalate_splitOnChar ':' chunk
          rw [hsp] at this
          rw [← this]
          simp [List.intercalate]
        have hkclean : cleanPair (k, v) := by
          have hnosemi : ';' ∉ chunk := hch chunk (List.mem_cons_self _ _)
          rw [hchunk] at hnosemi
          simp only [List.mem_append, List.mem_cons, not_or] at hnosemi
          have hk2 : ':' ∉ k := splitOnChar_chunks_not_mem ':' chunk k
            (hsp ▸ List.mem_cons_self _ _)
          have hv2 : ':' ∉ v := splitOnChar_chunks_not_mem ':' chunk v
            (hsp ▸ List.mem_cons_of_mem _ (List.mem_cons_self _ _))
          exact ⟨hnosemi.1, hk2, hnosemi.2.2, hv2⟩
        have := ih (acc ++ [(k, v)]) d h
          (fun c hc => hch c (List.mem_cons_of_mem _ hc))
          (by
            intro kv hkv
            rcases List.mem_append.mp hkv with h2 | h2
            · exact hacc kv h2
            · rcases List.mem_singleton.mp h2 with rfl
              exact hkclean)
          (by
            rw [List.map_append, List.nodup_append]
            refine ⟨hnd, by simp, ?_⟩
            intro x hx hx2
            simp only [List.map_cons, List.map_nil, List.mem_singleton] at hx2
            subst hx2
            exact hknotin hx)
        refine ⟨this.1, this.2.1, ?_⟩
        rw [this.2.2]
        simp
        omega
    · rw [hsp] at h; simp at h


/-- Splitting the serialization of a clean mapping restores its chunks. -/
theorem splitOnChar_styleSerialize (d : List (Str × Str)) (hd : d ≠ [])
    (hclean : ∀ kv ∈ d, cleanPair kv) :
    splitOnChar ';' (styleSerialize d) = d.map (fun kv => kv.1 ++ ':' :: kv.2) := by
  induction d with
  | nil => exact absurd rfl hd
  | cons kv rest ih =>
    have hkv := hclean kv (List.mem_cons_self _ _)
    have hchunk : ';' ∉ kv.1 ++ ':' :: kv.2 := by
      simp only [List.mem_append, List.mem_cons, not_or]
      exact ⟨hkv.1, by decide, hkv.2.2.1⟩
    cases rest with
    | nil =>
      show splitOnChar ';' (List.intercalate [';'] [kv.1 ++ ':' :: kv.2]) = _
      rw [show List.intercalate [';'] [kv.1 ++ ':' :: kv.2] = kv.1 ++ ':' :: kv.2 from by
        simp [List.intercalate]]
      rw [splitOnChar_of_not_mem ';' _ hchunk]
      rfl
    | cons kv2 rest2 =>
      have hic : ∀ (a : Str) (b : List Str), b ≠ [] →
          List.intercalate [';'] (a :: b) = a ++ ';' :: List.intercalate [';'] b := by
        intro a b hb
        cases b with
        | nil => exact absurd rfl hb
        | cons b1 bs => simp [List.intercalate]
      have hser : styleSerialize (kv :: kv2 :: rest2) =
          (kv.1 ++ ':' :: kv.2) ++ ';' :: styleSerialize (kv2 :: rest2) := by
        show List.intercalate [';'] _ = _
        rw [List.map_cons, hic _ _ (by simp)]
        rfl
      rw [hser, splitOnChar_append ';' _ _ hchunk]
      rw [ih (by simp) (fun kv3 hkv3 => hclean kv3 (List.mem_cons_of_mem _ hkv3))]
      rfl

/-- Parsing the chunks of a clean nodup mapping reconstructs it. -/
theorem styleParseChunks_of_chunks (d : List (Str × Str)) :
    ∀ acc : List (Str × Str),
    (∀ kv ∈ d, cleanPair kv) →
    ((acc ++ d).map Prod.fst).Nodup →
    styleParseChunks (d.map (fun kv => kv.1 ++ ':' :: kv.2)) acc = .ok (acc ++ d) := by
  induction d with
  | nil =>
    intro acc _ _
    simp [styleParseChunks]
  | cons kv rest ih =>
    intro acc hclean hnd
    have hkv := hclean kv (List.mem_cons_self _ _)
    rw [List.map_cons, styleParseChunks]
    rw [show splitOnChar ':' (kv.1 ++ ':' :: kv.2) = [kv.1, kv.2] from by
      rw [splitOnChar_append ':' _ _ hkv.2.1, splitOnChar_of_not_mem ':' _ hkv.2.2.2]]
    dsimp only
    have hknotin : kv.1 ∉ acc.map Prod.fst := by
      intro hin
      have : ((acc ++ kv :: rest).map Prod.fst).Nodup := hnd
      rw [List.map_append, List.nodup_append] at this
      exact this.2.2 hin (by simp)
    rw [show (acc.find? (fun kv2 => kv2.1 == kv.1)).isSome = false from by
      rw [assoc_find?_eq_none acc kv.1 hknotin]
      rfl]
    simp only [Bool.false_eq_true, if_false]
    have := ih (acc ++ [(kv.1, kv.2)])
      (fun kv3 hkv3 => hclean kv3 (List.mem_cons_of_mem _ hkv3))
      (by
        rw [List.append_assoc]
        simpa using hnd)
    rw [show acc ++ [(kv.1, kv.2)] = acc ++ [kv] from by simp] at this
    rw [this]
    rw [List.append_assoc]
    simp


/-- Keys of an `OrderedDict` assignment: unchanged for an existing key, the
new key appended otherwise. -/
theorem odInsert_keys (d : List (Str × Str)) (k v : Str) :
    (odInsert d k v).map Prod.fst =
      if k ∈ d.map Prod.fst then d.map Prod.fst else d.map Prod.fst ++ [k] := by
  induction d with
  | nil => simp [odInsert]
  | cons kv rest ih =>
    rw [odInsert]
    by_cases hk : kv.1 = k
    · rw [if_pos (by simpa using hk)]
      rw [List.map_cons, List.map_cons]
      rw [if_pos (by simp [hk])]
    · rw [if_neg (by simpa using hk)]
      rw [List.map_cons, List.map_cons, ih]
      by_cases hmem : k ∈ rest.map Prod.fst
      · rw [if_pos hmem, if_pos (by simp [hmem])]
      · rw [if_neg hmem, if_neg (by
          simp only [List.mem_cons, not_or]
          exact ⟨fun h => hk h.symm, hmem⟩)]
        rfl

/-- `OrderedDict` assignment preserves clean pairs. -/
theorem odInsert_clean (d : List (Str × Str)) (k v : Str)
    (hd : ∀ kv ∈ d, cleanPair kv) (hkv : cleanPair (k, v)) :
    ∀ kv2 ∈ odInsert d k v, cleanPair kv2 := by
  induction d with
  | nil =>
    intro kv2 h
    rw [odInsert] at h
    rcases List.mem_singleton.mp h with rfl
    exact hkv
  | cons kv rest ih =>
    intro kv2 h
    rw [odInsert] at h
    by_cases hk : kv.1 = k
    · rw [if_pos (by simpa using hk)] at h
      rcases List.mem_cons.mp h with rfl | h2
      · have := hd kv (List.mem_cons_self _ _)
        exact ⟨this.1, this.2.1, hkv.2.2.1, hkv.2.2.2⟩
      · exact hd kv2 (List.mem_cons_of_mem _ h2)
    · rw [if_neg (by simpa using hk)] at h
      rcases List.mem_cons.mp h with rfl | h2
      · exact hd kv2 (List.mem_cons_self _ _)
      · exact ih (fun kv3 h3 => hd kv3 (List.mem_cons_of_mem _ h3)) kv2 h2

/-- Lookup after assignment finds the assigned value. -/
theorem find?_odInsert_self (d : List (Str × Str)) (k v : Str) :
    (odInsert d k v).find? (fun kv => kv.1 == k) = some (k, v) := by
  induction d with
  | nil => simp [odInsert, List.find?]
  | cons kv rest ih =>
    rw [odInsert]
    by_cases hk : kv.1 = k
    · rw [if_pos (by simpa using hk)]
      rw [List.find?_cons_of_pos _ (by simpa using hk)]
      rw [hk]
    · rw [if_neg (by simpa using hk)]
      rw [List.find?_cons_of_neg _ (by simpa using hk)]
      exact ih

/-- Assignment to one key does not affect lookup of another. -/
theorem find?_odInsert_ne (d : List (Str × Str)) (k k2 v : Str) (h : k ≠ k2) :
    (odInsert d k2 v).find? (fun kv => kv.1 == k) = d.find? (fun kv => kv.1 == k) := by
  induction d with
  | nil =>
    simp only [odInsert, List.find?]
    have : ¬ (k2 == k) = true := by simpa using fun h2 => h h2.symm
    simp [this]
  | cons kv rest ih =>
    rw [odInsert]
    by_cases hk : kv.1 = k2
    · rw [if_pos (by simpa using hk)]
      by_cases hkk : kv.1 = k
      · exact absurd (hkk.symm.trans hk) h
      · rw [List.find?_cons_of_neg _ (by simpa [hk] using fun h2 => h h2.symm),
          List.find?_cons_of_neg _ (by simpa using hkk)]
    · rw [if_neg (by simpa using hk)]
      by_cases hkk : kv.1 = k
      · rw [List.find?_cons_of_pos _ (by simpa using hkk),
          List.find?_cons_of_pos _ (by simpa using hkk)]
      · rw [List.find?_cons_of_neg _ (by simpa using hkk),
          List.find?_cons_of_neg _ (by simpa using hkk)]
        exact ih

/-- Overlaying keys other than `k` does not affect lookup of `k`. -/
theorem find?_styleOverlay_not_mem (kws : List (Str × Str)) :
    ∀ (d : List (Str × Str)) (k : Str), k ∉ kws.map Prod.fst →
    (styleOverlay d kws).find? (fun kv => kv.1 == k) = d.find? (fun kv => kv.1 == k) := by
  induction kws with
  | nil => intro d k _; rfl
  | cons kv rest ih =>
    intro d k hk
    simp only [List.map_cons, List.mem_cons, not_or] at hk
    show (styleOverlay (odInsert d kv.1 kv.2) rest).find? _ = _
    rw [ih (odInsert d kv.1 kv.2) k (by simpa using hk.2)]
    exact find?_odInsert_ne d k kv.1 kv.2 hk.1

/-- Re-assigning the value a key already holds is a no-op. -/
theorem odInsert_eq_self (d : List (Str × Str)) (k v : Str)
    (h : d.find? (fun kv => kv.1 == k) = some (k, v)) :
    odInsert d k v = d := by
  induction d with
  | nil => simp [List.find?] at h
  | cons kv rest ih =>
    rw [odInsert]
    by_cases hk : kv.1 = k
    · rw [List.find?_cons_of_pos _ (by simpa using hk)] at h
      rw [if_pos (by simpa using hk)]
      have hkv : kv = (k, v) := Option.some.inj h
      rw [hkv]
    · rw [List.find?_cons_of_neg _ (by simpa using hk)] at h
      rw [if_neg (by simpa using hk)]
      rw [ih h]


/-- Overlaying a key-distinct command twice is the same as overlaying once. -/
theorem styleOverlay_idem (kws : List (Str × Str))
    (hnd : (kws.map Prod.fst).Nodup) :
    ∀ d, styleOverlay (styleOverlay d kws) kws = styleOverlay d kws := by
  induction kws with
  | nil => intro d; rfl
  | cons kv rest ih =>
    intro d
    have hnd2 : (rest.map Prod.fst).Nodup := (List.nodup_cons.mp (by simpa using hnd)).2
    have hknotin : kv.1 ∉ rest.map Prod.fst := (List.nodup_cons.mp (by simpa using hnd)).1
    show styleOverlay (odInsert (styleOverlay (odInsert d kv.1 kv.2) rest) kv.1 kv.2) rest =
      styleOverlay (odInsert d kv.1 kv.2) rest
    have hfind : (styleOverlay (odInsert d kv.1 kv.2) rest).find?
        (fun kv2 => kv2.1 == kv.1) = some (kv.1, kv.2) := by
      rw [find?_styleOverlay_not_mem rest (odInsert d kv.1 kv.2) kv.1 hknotin]
      exact find?_odInsert_self d kv.1 kv.2
    rw [odInsert_eq_self _ kv.1 kv.2 hfind]
    exact ih hnd2 (odInsert d kv.1 kv.2)

/-- Overlaying clean pairs preserves cleanliness. -/
theorem styleOverlay_clean (kws : List (Str × Str)) :
    ∀ d, (∀ kv ∈ d, cleanPair kv) → (∀ kv ∈ kws, cleanPair kv) →
    ∀ kv ∈ styleOverlay d kws, cleanPair kv := by
  induction kws with
  | nil => intro d hd _ kv h; exact hd kv h
  | cons kv0 rest ih =>
    intro d hd hkws kv h
    have h0 := hkws kv0 (List.mem_cons_self _ _)
    exact ih (odInsert d kv0.1 kv0.2)
      (odInsert_clean d kv0.1 kv0.2 hd (by simpa using h0))
      (fun kv2 h2 => hkws kv2 (List.mem_cons_of_mem _ h2)) kv h

/-- Overlaying preserves nodup keys. -/
theorem styleOverlay_nodup (kws : List (Str × Str)) :
    ∀ d, (d.map Prod.fst).Nodup → ((styleOverlay d kws).map Prod.fst).Nodup := by
  induction kws with
  | nil => intro d hd; exact hd
  | cons kv0 rest ih =>
    intro d hd
    refine ih (odInsert d kv0.1 kv0.2) ?_
    rw [odInsert_keys]
    by_cases hmem : kv0.1 ∈ d.map Prod.fst
    · rw [if_pos hmem]; exact hd
    · rw [if_neg hmem]
      rw [List.nodup_append]
      exact ⟨hd, by simp, by
        intro x hx hx2
        rcases List.mem_singleton.mp hx2 with rfl
        exact hmem hx⟩

/-- Overlaying keeps the mapping non-empty. -/
theorem styleOverlay_ne_nil (kws : List (Str × Str)) :
    ∀ d, d ≠ [] → styleOverlay d kws ≠ [] := by
  induction kws with
  | nil => intro d hd; exact hd
  | cons kv0 rest ih =>
    intro d hd
    refine ih (odInsert d kv0.1 kv0.2) ?_
    cases d with
    | nil => exact absurd rfl hd
    | cons kv2 rest2 =>
      rw [odInsert]
      by_cases hk : kv2.1 = kv0.1
      · rw [if_pos (by simpa using hk)]; simp
      · rw [if_neg (by simpa using hk)]; simp

/-- The overlay's key order: original keys first, genuinely new keys
appended at the end in command order. -/
theorem styleOverlay_keys (kws : List (Str × Str)) (hnd : (kws.map Prod.fst).Nodup) :
    ∀ d, (styleOverlay d kws).map Prod.fst =
      d.map Prod.fst ++
        (kws.map Prod.fst).filter (fun k => !(decide (k ∈ d.map Prod.fst))) := by
  induction kws with
  | nil =>
    intro d
    simp only [styleOverlay, List.foldl_nil, List.map_nil, List.filter_nil,
      List.append_nil]
  | cons kv0 rest ih =>
    intro d
    have hnd2 : (rest.map Prod.fst).Nodup := (List.nodup_cons.mp (by simpa using hnd)).2
    have hknotin : kv0.1 ∉ rest.map Prod.fst := (List.nodup_cons.mp (by simpa using hnd)).1
    show (styleOverlay (odInsert d kv0.1 kv0.2) rest).map Prod.fst = _
    rw [ih hnd2 (odInsert d kv0.1 kv0.2), odInsert_keys]
    by_cases hmem : kv0.1 ∈ d.map Prod.fst
    · rw [if_pos hmem]
      rw [List.map_cons, List.filter_cons]
      rw [show (!(decide (kv0.1 ∈ d.map Prod.fst))) = false from by simp [hmem]]
      simp only [Bool.false_eq_true, if_false]
    · rw [if_neg hmem]
      rw [List.map_cons, List.filter_cons]
      rw [show (!(decide (kv0.1 ∈ d.map Prod.fst))) = true from by simp [hmem]]
      simp only [if_true]
      rw [List.append_assoc]
      congr 1
      show [kv0.1] ++ _ = [kv0.1] ++ _
      congr 1
      apply List.filter_congr
      intro x hx
      have hxne : x ≠ kv0.1 := by
        intro hxeq
        exact hknotin (hxeq ▸ hx)
      simp only [List.mem_append, List.mem_singleton]
      congr 1
      simp [hxne]


/-- C7 (amended): for a rectangle whose existing style attribute parses as a
well-formed semicolon-delimited key:value list without duplicate keys, and a
`#style` command whose (distinct) keyword keys and values contain neither
`;` nor `:`, applying the command twice yields the same final style string
as applying it once; unchanged keys keep their original order and new keys
are appended at the end. -/
theorem styleFilter_idempotent_amended (style : Str) (kws d : List (Str × Str))
    (hparse : styleParseChunks (splitOnChar ';' style) [] = .ok d)
    (hclean : ∀ kv ∈ kws, cleanPair kv)
    (hnd : (kws.map Prod.fst).Nodup) :
    styleReplace kws (some style) = .ok (styleSerialize (styleOverlay d kws)) ∧
    styleReplace kws (some (styleSerialize (styleOverlay d kws))) =
      .ok (styleSerialize (styleOverlay d kws)) ∧
    (styleOverlay d kws).map Prod.fst =
      d.map Prod.fst ++
        (kws.map Prod.fst).filter (fun k => !(decide (k ∈ d.map Prod.fst))) := by
  obtain ⟨hdclean, hdnd, hdlen⟩ := styleParseChunks_ok_inv (splitOnChar ';' style) [] d
    hparse (splitOnChar_chunks_not_mem ';' style) (by simp) (by simp)
  have hchne : splitOnChar ';' style ≠ [] := splitOnChar_ne_nil ';' style
  have hdne : d ≠ [] := by
    intro h0
    rw [h0] at hdlen
    cases hsp : splitOnChar ';' style with
    | nil => exact hchne hsp
    | cons a b =>
      rw [hsp] at hdlen
      simp at hdlen
  have hzclean := styleOverlay_clean kws d hdclean hclean
  have hznd := styleOverlay_nodup kws d hdnd
  have hzne := styleOverlay_ne_nil kws d hdne
  refine ⟨?_, ?_, styleOverlay_keys kws hnd d⟩
  · unfold styleReplace
    rw [Option.getD_some, hparse]
  · unfold styleReplace
    rw [Option.getD_some]
    rw [splitOnChar_styleSerialize (styleOverlay d kws) hzne hzclean]
    rw [styleParseChunks_of_chunks (styleOverlay d kws) [] hzclean (by simpa using hznd)]
    dsimp only
    rw [show ([] : List (Str × Str)) ++ styleOverlay d kws = styleOverlay d kws from by simp]
    rw [styleOverlay_idem kws hnd d]

/-- Witness for C7: with existing style `a:b` and command `#style fill=red`,
the second application reproduces `a:b;fill:red`. -/
theorem styleFilter_idempotent_amended_witness :
    styleReplace [(str "fill", str "red")] (some (str "a:b;fill:red")) =
      .ok (str "a:b;fill:red") :=
  (styleFilter_idempotent_amended (str "a:b") [(str "fill", str "red")]
    [(str "a", str "b")] rfl (by decide) (by decide)).2.1


/-- The traversal direction of the pagination loop (`--dir`). -/
inductive Dir where
  | row
  | col
deriving DecidableEq

/-- The sheet parameters and starting indices of the `labelmaker.py` main
loop.  Spacings and offsets are already converted to device units. -/
structure LayoutCfg where
  num_rows : Nat
  num_cols : Nat
  offx : ℚ
  offy : ℚ
  incx : ℚ
  incy : ℚ
  dir : Dir
  start_row : Nat
  start_col : Nat

/-- The minor-axis bound (`min_max`). -/
def LayoutCfg.min_max (cfg : LayoutCfg) : Nat :=
  match cfg.dir with
  | .row => cfg.num_cols
  | .col => cfg.num_rows

/-- The major-axis bound (`maj_max`). -/
def LayoutCfg.maj_max (cfg : LayoutCfg) : Nat :=
  match cfg.dir with
  | .row => cfg.num_rows
  | .col => cfg.num_cols

/-- The starting minor index (`curr_min`). -/
def LayoutCfg.start_min (cfg : LayoutCfg) : Nat :=
  match cfg.dir with
  | .row => cfg.start_col
  | .col => cfg.start_row

/-- The starting major index (`curr_maj`). -/
def LayoutCfg.start_maj (cfg : LayoutCfg) : Nat :=
  match cfg.dir with
  | .row => cfg.start_row
  | .col => cfg.start_col

/-- A page: the positioned instance groups appended to the base clone, each
a translation offset together with the generated fragments it wraps. -/
abbrev Page := List (ℚ × ℚ × List Elt)

/-- The mutable state of the pagination loop. -/
structure LoopState where
  curr_min : Nat
  curr_maj : Nat
  curr_page : Nat
  output : Option Page
  files : List (Str × Page)

/-- One iteration of the pagination loop on an accepted row's generated
instance: open a page lazily, place the instance at the direction-dependent
offset, advance the minor index (resetting and advancing the major index at
its bound), and on major overflow write `<base>_<page>.svg` and close the
page. -/
def layoutStep (cfg : LayoutCfg) (base : Str) (st : LoopState) (inst : List Elt) :
    LoopState :=
  let page0 := st.output.getD []
  let pos_x : ℚ := match cfg.dir with
    | .row => cfg.offx + (st.curr_min : ℚ) * cfg.incx
    | .col => cfg.offx + (st.curr_maj : ℚ) * cfg.incx
  let pos_y : ℚ := match cfg.dir with
    | .row => cfg.offy + (st.curr_maj : ℚ) * cfg.incy
    | .col => cfg.offy + (st.curr_min : ℚ) * cfg.incy
  let page := page0 ++ [(pos_x, pos_y, inst)]
  let min1 := st.curr_min + 1
  let min2 := if min1 = cfg.min_max then 0 else min1
  let maj1 := if min1 = cfg.min_max then st.curr_maj + 1 else st.curr_maj
  if maj1 = cfg.maj_max then
    { curr_min := min2, curr_maj := 0, curr_page := st.curr_page + 1,
      output := none,
      files := st.files ++
        [(base ++ str "_" ++ natStr st.curr_page ++ str ".svg", page)] }
  else
    { curr_min := min2, curr_maj := maj1, curr_page := st.curr_page,
      output := some page, files := st.files }

/-- The pagination loop of `labelmaker.py` over the accepted rows' generated
instances: after the starting-index bounds assertions, fold the step over
the rows and finally write the still-open partially-filled page, if any.
Returns the written files in order. -/
def layoutRun (cfg : LayoutCfg) (base : Str) (rows : List (List Elt)) :
    Except Str (List (Str × Page)) :=
  if cfg.start_min < cfg.min_max ∧ cfg.start_maj < cfg.maj_max then
    let final := rows.foldl (layoutStep cfg base)
      { curr_min := cfg.start_min, curr_maj := cfg.start_maj, curr_page := 0,
        output := none, files := [] }
    match final.output with
    | none => .ok final.files
    | some page => .ok (final.files ++
        [(base ++ str "_" ++ natStr final.curr_page ++ str ".svg", page)])
  else
    .error (str "starting position exceeds bounds")

/-- C3: with `nrows=2, ncols=3`, row-major direction and start indices
`(0,0)`, 7 accepted rows produce exactly two output files, named
`<base>_0.svg` and `<base>_1.svg`: the first page holds 6 positioned
instance groups with the column (minor) index advancing first and resetting
at its bound, the second holds the single remaining instance; no file is
written for any further empty page. -/
theorem pagination_seven_rows (base : Str) (offx offy incx incy : ℚ)
    (g1 g2 g3 g4 g5 g6 g7 : List Elt) :
    layoutRun
      { num_rows := 2, num_cols := 3, offx := offx, offy := offy,
        incx := incx, incy := incy, dir := .row, start_row := 0, start_col := 0 }
      base [g1, g2, g3, g4, g5, g6, g7] =
    .ok [(base ++ str "_" ++ natStr 0 ++ str ".svg",
           [(offx, offy, g1), (offx + incx, offy, g2), (offx + 2 * incx, offy, g3),
            (offx, offy + incy, g4), (offx + incx, offy + incy, g5),
            (offx + 2 * incx, offy + incy, g6)]),
         (base ++ str "_" ++ natStr 1 ++ str ".svg",
           [(offx, offy, g7)])] := by
  unfold layoutRun
  rw [if_pos (show
      (LayoutCfg.mk 2 3 offx offy incx incy .row 0 0).start_min < (LayoutCfg.mk 2 3 offx offy incx incy .row 0 0).min_max ∧
      (LayoutCfg.mk 2 3 offx offy incx incy .row 0 0).start_maj < (LayoutCfg.mk 2 3 offx offy incx incy .row 0 0).maj_max from
    ⟨by show (0 : ℕ) < 3; decide, by show (0 : ℕ) < 2; decide⟩)]
  dsimp only [LayoutCfg.start_min, LayoutCfg.start_maj]
  simp only [List.foldl_cons, List.foldl_nil]
  rw [show layoutStep
      (LayoutCfg.mk 2 3 offx offy incx incy .row 0 0)
      base ⟨0, 0, 0, none, []⟩ g1 =
    (⟨1, 0, 0, some [(offx + ((0 : ℕ) : ℚ) * incx, offy + ((0 : ℕ) : ℚ) * incy, g1)], []⟩ : LoopState) from rfl]
  rw [show layoutStep
      (LayoutCfg.mk 2 3 offx offy incx incy .row 0 0)
      base ⟨1, 0, 0, some [(offx + ((0 : ℕ) : ℚ) * incx, offy + ((0 : ℕ) : ℚ) * incy, g1)], []⟩ g2 =
    (⟨2, 0, 0, some [(offx + ((0 : ℕ) : ℚ) * incx, offy + ((0 : ℕ) : ℚ) * incy, g1), (offx + ((1 : ℕ) : ℚ) * incx, offy + ((0 : ℕ) : ℚ) * incy, g2)], []⟩ : LoopState) from rfl]
  rw [show layoutStep
      (LayoutCfg.mk 2 3 offx offy incx incy .row 0 0)
      base ⟨2, 0, 0, some [(offx + ((0 : ℕ) : ℚ) * incx, offy + ((0 : ℕ) : ℚ) * incy, g1), (offx + ((1 : ℕ) : ℚ) * incx, offy + ((0 : ℕ) : ℚ) * incy, g2)], []⟩ g3 =
    (⟨0, 1, 0, some [(offx + ((0 : ℕ) : ℚ) * incx, offy + ((0 : ℕ) : ℚ) * incy, g1), (offx + ((1 : ℕ) : ℚ) * incx, offy + ((0 : ℕ) : ℚ) * incy, g2), (offx + ((2 : ℕ) : ℚ) * incx, offy + ((0 : ℕ) : ℚ) * incy, g3)], []⟩ : LoopState) from rfl]
  rw [show layoutStep
      (LayoutCfg.mk 2 3 offx offy incx incy .row 0 0)
      base ⟨0, 1, 0, some [(offx + ((0 : ℕ) : ℚ) * incx, offy + ((0 : ℕ) : ℚ) * incy, g1), (offx + ((1 : ℕ) : ℚ) * incx, offy + ((0 : ℕ) : ℚ) * incy, g2), (offx + ((2 : ℕ) : ℚ) * incx, offy + ((0 : ℕ) : ℚ) * incy, g3)], []⟩ g4 =
    (⟨1, 1, 0, some [(offx + ((0 : ℕ) : ℚ) * incx, offy + ((0 : ℕ) : ℚ) * incy, g1), (offx + ((1 : ℕ) : ℚ) * incx, offy + ((0 : ℕ) : ℚ) * incy, g2), (offx + ((2 : ℕ) : ℚ) * incx, offy + ((0 : ℕ) : ℚ) * incy, g3), (offx + ((0 : ℕ) : ℚ) * incx, offy + ((1 : ℕ) : ℚ) * incy, g4)], []⟩ : LoopState) from rfl]
  rw [show layoutStep
      (LayoutCfg.mk 2 3 offx offy incx incy .row 0 0)
      base ⟨1, 1, 0, some [(offx + ((0 : ℕ) : ℚ) * incx, offy + ((0 : ℕ) : ℚ) * incy, g1), (offx + ((1 : ℕ) : ℚ) * incx, offy + ((0 : ℕ) : ℚ) * incy, g2), (offx + ((2 : ℕ) : ℚ) * incx, offy + ((0 : ℕ) : ℚ) * incy, g3), (offx + ((0 : ℕ) : ℚ) * incx, offy + ((1 : ℕ) : ℚ) * incy, g4)], []⟩ g5 =
    (⟨2, 1, 0, some [(offx + ((0 : ℕ) : ℚ) * incx, offy + ((0 : ℕ) : ℚ) * incy, g1), (offx + ((1 : ℕ) : ℚ) * incx, offy + ((0 : ℕ) : ℚ) * incy, g2), (offx + ((2 : ℕ) : ℚ) * incx, offy + ((0 : ℕ) : ℚ) * incy, g3), (offx + ((0 : ℕ) : ℚ) * incx, offy + ((1 : ℕ) : ℚ) * incy, g4), (offx + ((1 : ℕ) : ℚ) * incx, offy + ((1 : ℕ) : ℚ) * incy, g5)], []⟩ : LoopState) from rfl]
  rw [show layoutStep
      (LayoutCfg.mk 2 3 offx offy incx incy .row 0 0)
      base ⟨2, 1, 0, some [(offx + ((0 : ℕ) : ℚ) * incx, offy + ((0 : ℕ) : ℚ) * incy, g1), (offx + ((1 : ℕ) : ℚ) * incx, offy + ((0 : ℕ) : ℚ) * incy, g2), (offx + ((2 : ℕ) : ℚ) * incx, offy + ((0 : ℕ) : ℚ) * incy, g3), (offx + ((0 : ℕ) : ℚ) * incx, offy + ((1 : ℕ) : ℚ) * incy, g4), (offx + ((1 : ℕ) : ℚ) * incx, offy + ((1 : ℕ) : ℚ) * incy, g5)], []⟩ g6 =
    (⟨0, 0, 1, none, [(base ++ str "_" ++ natStr 0 ++ str ".svg", [(offx + ((0 : ℕ) : ℚ) * incx, offy + ((0 : ℕ) : ℚ) * incy, g1),
            (offx + ((1 : ℕ) : ℚ) * incx, offy + ((0 : ℕ) : ℚ) * incy, g2),
            (offx + ((2 : ℕ) : ℚ) * incx, offy + ((0 : ℕ) : ℚ) * incy, g3),
            (offx + ((0 : ℕ) : ℚ) * incx, offy + ((1 : ℕ) : ℚ) * incy, g4),
            (offx + ((1 : ℕ) : ℚ) * incx, offy + ((1 : ℕ) : ℚ) * incy, g5),
            (offx + ((2 : ℕ) : ℚ) * incx, offy + ((1 : ℕ) : ℚ) * incy, g6)])]⟩ : LoopState) from rfl]
  rw [show layoutStep
      (LayoutCfg.mk 2 3 offx offy incx incy .row 0 0)
      base ⟨0, 0, 1, none, [(base ++ str "_" ++ natStr 0 ++ str ".svg", [(offx + ((0 : ℕ) : ℚ) * incx, offy + ((0 : ℕ) : ℚ) * incy, g1),
            (offx + ((1 : ℕ) : ℚ) * incx, offy + ((0 : ℕ) : ℚ) * incy, g2),
            (offx + ((2 : ℕ) : ℚ) * incx, offy + ((0 : ℕ) : ℚ) * incy, g3),
            (offx + ((0 : ℕ) : ℚ) * incx, offy + ((1 : ℕ) : ℚ) * incy, g4),
            (offx + ((1 : ℕ) : ℚ) * incx, offy + ((1 : ℕ) : ℚ) * incy, g5),
            (offx + ((2 : ℕ) : ℚ) * incx, offy + ((1 : ℕ) : ℚ) * incy, g6)])]⟩ g7 =
    (⟨1, 0, 1, some [(offx + ((0 : ℕ) : ℚ) * incx, offy + ((0 : ℕ) : ℚ) * incy, g7)], [(base ++ str "_" ++ natStr 0 ++ str ".svg", [(offx + ((0 : ℕ) : ℚ) * incx, offy + ((0 : ℕ) : ℚ) * incy, g1),
            (offx + ((1 : ℕ) : ℚ) * incx, offy + ((0 : ℕ) : ℚ) * incy, g2),
            (offx + ((2 : ℕ) : ℚ) * incx, offy + ((0 : ℕ) : ℚ) * incy, g3),
            (offx + ((0 : ℕ) : ℚ) * incx, offy + ((1 : ℕ) : ℚ) * incy, g4),
            (offx + ((1 : ℕ) : ℚ) * incx, offy + ((1 : ℕ) : ℚ) * incy, g5),
            (offx + ((2 : ℕ) : ℚ) * incx, offy + ((1 : ℕ) : ℚ) * incy, g6)])]⟩ : LoopState) from rfl]
  show Except.ok _ = _
  norm_num

/-- Modelled from the spec: `Code128.code128_widths` lives in `Code128.py`,
which is not under `src/`.  The spec says the payload is encoded into an
alternating bar/space width sequence — odd length, starting and ending with
a bar — using the Code 128 symbology's width table.  This models code set B
of that symbology: the module width table for symbol values 0-105
(bar, space, bar, space, bar, space widths, each row summing to 11). -/
def code128Table : List (List Nat) := [
  [2, 1, 2, 2, 2, 2],  -- 0
  [2, 2, 2, 1, 2, 2],
  [2, 2, 2, 2, 2, 1],
  [1, 2, 1, 2, 2, 3],
  [1, 2, 1, 3, 2, 2],
  [1, 3, 1, 2, 2, 2],
  [1, 2, 2, 2, 1, 3],
  [1, 2, 2, 3, 1, 2],
  [1, 3, 2, 2, 1, 2],
  [2, 2, 1, 2, 1, 3],
  [2, 2, 1, 3, 1, 2],  -- 10
  [2, 3, 1, 2, 1, 2],
  [1, 1, 2, 2, 3, 2],
  [1, 2, 2, 1, 3, 2],
  [1, 2, 2, 2, 3, 1],
  [1, 1, 3, 2, 2, 2],
  [1, 2, 3, 1, 2, 2],
  [1, 2, 3, 2, 2, 1],
  [2, 2, 3, 2, 1, 1],
  [2, 2, 1, 1, 3, 2],
  [2, 2, 1, 2, 3, 1],  -- 20
  [2, 1, 3, 2, 1, 2],
  [2, 2, 3, 1, 1, 2],
  [3, 1, 2, 1, 3, 1],
  [3, 1, 1, 2, 2, 2],
  [3, 2, 1, 1, 2, 2],
  [3, 2, 1, 2, 2, 1],
  [3, 1, 2, 2, 1, 2],
  [3, 2, 2, 1, 1, 2],
  [3, 2, 2, 2, 1, 1],
  [2, 1, 2, 1, 2, 3],  -- 30
  [2, 1, 2, 3, 2, 1],
  [2, 3, 2, 1, 2, 1],
  [1, 1, 1, 3, 2, 3],
  [1, 3, 1, 1, 2, 3],
  [1, 3, 1, 3, 2, 1],
  [1, 1, 2, 3, 1, 3],
  [1, 3, 2, 1, 1, 3],
  [1, 3, 2, 3, 1, 1],
  [2, 1, 1, 3, 1, 3],
  [2, 3, 1, 1, 1, 3],  -- 40
  [2, 3, 1, 3, 1, 1],
  [1, 1, 2, 1, 3, 3],
  [1, 1, 2, 3, 3, 1],
  [1, 3, 2, 1, 3, 1],
  [1, 1, 3, 1, 2, 3],
  [1, 1, 3, 3, 2, 1],
  [1, 3, 3, 1, 2, 1],
  [3, 1, 3, 1, 2, 1],
  [2, 1, 1, 3, 3, 1],
  [2, 3, 1, 1, 3, 1],  -- 50
  [2, 1, 3, 1, 1, 3],
  [2, 1, 3, 3, 1, 1],
  [2, 1, 3, 1, 3, 1],
  [3, 1, 1, 1, 2, 3],
  [3, 1, 1, 3, 2, 1],
  [3, 3, 1, 1, 2, 1],
  [3, 1, 2, 1, 1, 3],
  [3, 1, 2, 3, 1, 1],
  [3, 3, 2, 1, 1, 1],
  [3, 1, 4, 1, 1, 1],  -- 60
  [2, 2, 1, 4, 1, 1],
  [4, 3, 1, 1, 1, 1],
  [1, 1, 1, 2, 2, 4],
  [1, 1, 1, 4, 2, 2],
  [1, 2, 1, 1, 2, 4],
  [1, 2, 1, 4, 2, 1],
  [1, 4, 1, 1, 2, 2],
  [1, 4, 1, 2, 2, 1],
  [1, 1, 2, 2, 1, 4],
  [1, 1, 2, 4, 1, 2],  -- 70
  [1, 2, 2, 1, 1, 4],
  [1, 2, 2, 4, 1, 1],
  [1, 4, 2, 1, 1, 2],
  [1, 4, 2, 2, 1, 1],
  [2, 4, 1, 2, 1, 1],
  [2, 2, 1, 1, 1, 4],
  [4, 1, 3, 1, 1, 1],
  [2, 4, 1, 1, 1, 2],
  [1, 3, 4, 1, 1, 1],
  [1, 1, 1, 2, 4, 2],  -- 80
  [1, 2, 1, 1, 4, 2],
  [1, 2, 1, 2, 4, 1],
  [1, 1, 4, 2, 1, 2],
  [1, 2, 4, 1, 1, 2],
  [1, 2, 4, 2, 1, 1],
  [4, 1, 1, 2, 1, 2],
  [4, 2, 1, 1, 1, 2],
  [4, 2, 1, 2, 1, 1],
  [2, 1, 2, 1, 4, 1],
  [2, 1, 4, 1, 2, 1],  -- 90
  [4, 1, 2, 1, 2, 1],
  [1, 1, 1, 1, 4, 3],
  [1, 1, 1, 3, 4, 1],
  [1, 3, 1, 1, 4, 1],
  [1, 1, 4, 1, 1, 3],
  [1, 1, 4, 3, 1, 1],
  [4, 1, 1, 1, 1, 3],
  [4, 1, 1, 3, 1, 1],
  [1, 1, 3, 1, 4, 1],
  [1, 1, 4, 1, 3, 1],  -- 100
  [3, 1, 1, 1, 4, 1],
  [4, 1, 1, 1, 3, 1],
  [2, 1, 1, 4, 1, 2],  -- 103
  [2, 1, 1, 2, 1, 4],  -- 104
  [2, 1, 1, 2, 3, 2]]  -- 105

/-- Modelled from the spec: Code 128 (code set B) encoding of a payload —
start code 104, one symbol per character (value `ord(c) - 32`), the
weighted-sum checksum symbol mod 103, and the 13-module stop pattern. -/
def code128Widths (val : Str) : List Nat :=
  let vals := val.map (fun c => c.toNat - 32)
  let checksum := (104 +
    (vals.enum.map (fun p => p.2 * (p.1 + 1))).sum) % 103
  code128Table.getD 104 [] ++
    (vals.map (fun v => code128Table.getD v [])).flatten ++
    code128Table.getD checksum [] ++
    [2, 3, 3, 1, 1, 1, 2]

/-- Decimal-ish rendering of a rational, for generated attribute strings. -/
def ratStr (q : ℚ) : Str := (toString q).data

/-- The `SvgTemplateException` message of the barcode width check. -/
def widthExceededMsg (val : Str) (barcode_width width : ℚ) : Str :=
  str "Barcode '" ++ val ++ str "' with width " ++ ratStr barcode_width ++
    str " exceeds allocated width " ++ ratStr width

/-- The bar-emission loop of `BarcodeFilter.replace`: one `rect` per odd
(bar) segment, skipping the even (space) segments, advancing `curr_x`. -/
def barLoop : List ℚ → ℚ → Str → Str → Str → Bool → List Elt
  | [], _, _, _, _, _ => []
  | w :: ws, curr_x, yStr, hStr, fill, draw =>
    if draw then
      Elt.mk (str "rect")
        [(str "x", ratStr curr_x), (str "y", yStr),
         (str "width", ratStr w), (str "height", hStr),
         (str "style", str "stroke:none;fill:" ++ fill ++ str ";fill-opacity:1")]
        none [] :: barLoop ws (curr_x + w) yStr hStr fill (!draw)
    else
      barLoop ws (curr_x + w) yStr hStr fill (!draw)

/-- The symbology widths scaled by `thickness`
(`[x * thickness for x in barcode_widths]`). -/
def scaledWidths (val : Str) (thickness : ℚ) : List ℚ :=
  (code128Widths val).map (fun (w : ℕ) => (w : ℚ) * thickness)

/-- The total barcode width: the scaled widths, plus the 20x-thickness
quiet-zone margin when `quiet` is set. -/
def totalBarcodeWidth (val : Str) (thickness : ℚ) (quiet : Bool) : ℚ :=
  if quiet then (scaledWidths val thickness).sum + 20 * thickness
  else (scaledWidths val thickness).sum

/-- The alignment-dependent starting x; `none` models the Python
`UnboundLocalError` on an unrecognized alignment. -/
def barcodeStartX (alignment : Str) (x width bw : ℚ) : Option ℚ :=
  if alignment = str "xMin" then some x
  else if alignment = str "xMid" then some (x + ((width - bw) / 2))
  else if alignment = str "xMax" then some (x + width - bw)
  else none

/-- `BarcodeFilter.replace` for a `#code128` command with a payload, after
the command's arguments have been read: `val` is positional argument 0,
`x`/`width` the rectangle's resolved geometry, `yStr`/`hStr` its raw
y/height attributes, and `alignment`/`fill`/`quiet`/`thickness` the keyword
arguments.  Scale the symbology widths by `thickness`, add the quiet-zone
margin, fail when the total exceeds the rectangle width, check the
odd-length assertion, then emit the bar rectangles from the
alignment-dependent (quiet-shifted) start position. -/
def barcodeReplace (val : Str) (x width : ℚ) (yStr hStr : Str)
    (alignment fill : Str) (quiet : Bool) (thickness : ℚ) : Except Str (List Elt) :=
  if totalBarcodeWidth val thickness quiet > width then
    .error (widthExceededMsg val (totalBarcodeWidth val thickness quiet) width)
  else
    match barcodeStartX alignment x width (totalBarcodeWidth val thickness quiet) with
    | none => .error (str "UnboundLocalError: curr_x")
    | some curr_x0 =>
      if (scaledWidths val thickness).length % 2 = 1 then
        .ok (barLoop (scaledWidths val thickness)
          (if quiet then curr_x0 + 10 * thickness else curr_x0) yStr hStr fill true)
      else
        .error (str "AssertionError")

theorem code128Table_flatten_length :
    ∀ vs : List ℕ, (∀ v ∈ vs, v < 106) →
      ((vs.map fun v => code128Table.getD v []).flatten).length = 6 * vs.length := by
  have htable : ∀ v < 106, (code128Table.getD v []).length = 6 := by decide
  intro vs hvs
  induction vs with
  | nil => simp
  | cons a t ih =>
    simp only [List.map_cons, List.flatten_cons, List.length_append, List.length_cons]
    rw [htable a (hvs a (by simp)), ih (fun v hv => hvs v (by simp [hv]))]
    ring

theorem code128Widths_length (val : Str)
    (hval : ∀ c ∈ val, 32 ≤ c.toNat ∧ c.toNat ≤ 127) :
    (code128Widths val).length = 6 * val.length + 19 := by
  have htable : ∀ v < 106, (code128Table.getD v []).length = 6 := by decide
  have hvals : ∀ v ∈ val.map (fun c => c.toNat - 32), v < 106 := by
    intro v hv
    rcases List.mem_map.mp hv with ⟨c, hc, rfl⟩
    have := (hval c hc).2
    omega
  simp only [code128Widths]
  simp only [List.length_append, List.length_cons, List.length_nil]
  rw [htable 104 (by norm_num), code128Table_flatten_length _ hvals,
    htable _ (lt_of_lt_of_le (Nat.mod_lt _ (by norm_num)) (by norm_num)),
    List.length_map]
  ring

theorem code128Widths_length_odd (val : Str)
    (hval : ∀ c ∈ val, 32 ≤ c.toNat ∧ c.toNat ≤ 127) :
    (code128Widths val).length % 2 = 1 := by
  rw [code128Widths_length val hval]
  omega

theorem totalBarcodeWidth_eq (val : Str) (thickness : ℚ) (quiet : Bool) :
    totalBarcodeWidth val thickness quiet =
      (scaledWidths val thickness).sum + (if quiet then 20 * thickness else 0) := by
  cases quiet <;> simp [totalBarcodeWidth]

/-- If the total width (scaled widths plus the quiet-zone margin) exceeds the
rectangle width, `barcodeReplace` fails with the width-exceeded error. -/
theorem barcodeReplace_over (val : Str) (x width : ℚ) (yStr hStr alignment fill : Str)
    (quiet : Bool) (thickness : ℚ)
    (hover : (scaledWidths val thickness).sum + (if quiet then 20 * thickness else 0) > width) :
    barcodeReplace val x width yStr hStr alignment fill quiet thickness =
      .error (widthExceededMsg val
        ((scaledWidths val thickness).sum + (if quiet then 20 * thickness else 0)) width) := by
  simp only [barcodeReplace]
  rw [totalBarcodeWidth_eq val thickness quiet, if_pos hover]

/-- With an encodable payload, a recognized alignment, and a total width within
the rectangle width, `barcodeReplace` succeeds. -/
theorem barcodeReplace_ok (val : Str) (x width : ℚ) (yStr hStr alignment fill : Str)
    (quiet : Bool) (thickness : ℚ)
    (hval : ∀ c ∈ val, 32 ≤ c.toNat ∧ c.toNat ≤ 127)
    (halign : alignment ∈ [str "xMin", str "xMid", str "xMax"])
    (hnot : ¬ ((scaledWidths val thickness).sum +
      (if quiet then 20 * thickness else 0) > width)) :
    ∃ elts, barcodeReplace val x width yStr hStr alignment fill quiet thickness =
      Except.ok elts := by
  have hodd : (scaledWidths val thickness).length % 2 = 1 := by
    have hlen : (scaledWidths val thickness).length = (code128Widths val).length :=
      List.length_map _ _
    rw [hlen]
    exact code128Widths_length_odd val hval
  have hstart : ∃ cx, barcodeStartX alignment x width
      ((scaledWidths val thickness).sum + (if quiet then 20 * thickness else 0)) =
      some cx := by
    simp only [List.mem_cons, List.not_mem_nil, or_false] at halign
    rcases halign with h | h | h <;> subst h
    · exact ⟨x, rfl⟩
    · exact ⟨x + ((width - ((scaledWidths val thickness).sum +
        (if quiet then 20 * thickness else 0))) / 2), rfl⟩
    · exact ⟨x + width - ((scaledWidths val thickness).sum +
        (if quiet then 20 * thickness else 0)), rfl⟩
  rcases hstart with ⟨cx, hcx⟩
  refine ⟨barLoop (scaledWidths val thickness)
    (if quiet then cx + 10 * thickness else cx) yStr hStr fill true, ?_⟩
  simp only [barcodeReplace]
  rw [totalBarcodeWidth_eq val thickness quiet, if_neg hnot, hcx]
  exact if_pos hodd

/-- C1: For the BarcodeFilter applied to a #code128 command with a payload of
encodable (printable-ASCII) characters and a recognized alignment, the total
barcode width is the sum of the symbology's bar/space widths each scaled by
thickness, plus 20 x thickness when quiet is true; the filter fails with the
width-exceeded error exactly when this total exceeds the rectangle's declared
width, and succeeds otherwise.  In particular payload "123" with thickness 3,
quiet true and rectangle width 500 succeeds, while the same payload with
rectangle width 10 fails with the width-exceeded error (total 264 > 10). -/
theorem barcode_width_check :
    (∀ (val : Str) (x width : ℚ) (yStr hStr alignment fill : Str) (quiet : Bool)
      (thickness : ℚ),
      (∀ c ∈ val, 32 ≤ c.toNat ∧ c.toNat ≤ 127) →
      alignment ∈ [str "xMin", str "xMid", str "xMax"] →
      (((scaledWidths val thickness).sum + (if quiet then 20 * thickness else 0) > width →
        barcodeReplace val x width yStr hStr alignment fill quiet thickness =
          .error (widthExceededMsg val
            ((scaledWidths val thickness).sum + (if quiet then 20 * thickness else 0))
            width)) ∧
       (¬ ((scaledWidths val thickness).sum + (if quiet then 20 * thickness else 0) > width) →
        ∃ elts, barcodeReplace val x width yStr hStr alignment fill quiet thickness =
          Except.ok elts))) ∧
    (∃ elts, barcodeReplace (str "123") 0 500 (str "0") (str "20") (str "xMid")
      (str "#000000") true 3 = Except.ok elts) ∧
    barcodeReplace (str "123") 0 10 (str "0") (str "20") (str "xMid")
      (str "#000000") true 3 = .error (widthExceededMsg (str "123") 264 10) := by
  have hw123 : code128Widths (str "123") =
      [2, 1, 1, 2, 1, 4, 1, 2, 3, 2, 2, 1, 2, 2, 3, 2, 1, 1, 2, 2, 1, 1, 3, 2,
       1, 3, 2, 2, 1, 2, 2, 3, 3, 1, 1, 1, 2] := by decide
  have hs123 : (scaledWidths (str "123") 3).sum = 204 := by
    simp only [scaledWidths, hw123, List.map_cons, List.map_nil, List.sum_cons,
      List.sum_nil]
    norm_num
  refine ⟨fun val x width yStr hStr alignment fill quiet thickness hval halign =>
    ⟨fun hover => barcodeReplace_over val x width yStr hStr alignment fill
        quiet thickness hover,
     fun hnot => barcodeReplace_ok val x width yStr hStr alignment fill
        quiet thickness hval halign hnot⟩, ?_, ?_⟩
  · exact barcodeReplace_ok (str "123") 0 500 (str "0") (str "20") (str "xMid")
      (str "#000000") true 3 (by decide) (by decide)
      (by rw [hs123]; norm_num)
  · have h := barcodeReplace_over (str "123") 0 10 (str "0") (str "20") (str "xMid")
      (str "#000000") true 3 (by rw [hs123]; norm_num)
    rw [h, hs123]
    norm_num

/-- Witness: payload "A", alignment xMin, thickness 2, no quiet zone, rectangle
width 1000 — the total width 92 is within bounds, so the filter succeeds. -/
theorem barcode_width_check_witness :
    ∃ elts, barcodeReplace (str "A") 0 1000 (str "0") (str "20") (str "xMin")
      (str "#000000") false 2 = Except.ok elts := by
  have hw : code128Widths (str "A") =
      [2, 1, 1, 2, 1, 4, 1, 1, 1, 3, 2, 3, 1, 3, 1, 1, 2, 3, 2, 3, 3, 1, 1, 1, 2] := by
    decide
  refine (barcode_width_check.1 (str "A") 0 1000 (str "0") (str "20") (str "xMin")
    (str "#000000") false 2 (by decide) (by decide)).2 ?_
  simp only [scaledWidths, hw, List.map_cons, List.map_nil, List.sum_cons, List.sum_nil]
  norm_num

end Labelmaker
